import Mathlib

/-!
Verification of the Object-Extender repository (current implementation:
`src/objectExtender.js`, the `'use strict'` section, lines 236-370) against its
natural-language specification.

The repository's public entry points (`extend`, `merge`, `mergeInto`, `clone`,
`defaults` and the aliases `copy`, `mixin`) are thin wrappers around the
external `object-assign-deep` package, whose code is not part of this
repository's sources.  Definitions translated from the repository's own code
carry a doc comment naming the source function; the merge engine itself is
modelled from the specification (doc comments starting `Modelled from the
spec:`).

JavaScript values are embedded as the inductive type `Value`: mappings are
association lists in insertion order (JavaScript objects enumerate string keys
in insertion order), sequences are lists, and the scalars are null, undefined,
strings, integers and booleans.  Opaque/foreign values are outside the model.
-/

set_option autoImplicit false

namespace ObjectExtender

/-- JavaScript-style values: scalars (null, undefined, string, number, boolean),
ordered sequences (arrays) and mappings (objects as insertion-ordered
association lists). -/
inductive Value where
  | vNull : Value
  | vUndef : Value
  | vStr (s : String) : Value
  | vNum (n : Int) : Value
  | vBool (b : Bool) : Value
  | arr (es : List Value) : Value
  | obj (fs : List (String × Value)) : Value

/-- The `arrayBehaviour` option of the merge engine: `replace` (default) or
`merge`. -/
inductive ArrayBehaviour where
  | replace : ArrayBehaviour
  | merge : ArrayBehaviour
deriving DecidableEq

/-- First value bound to a key in an association list (JavaScript property
lookup; real JavaScript objects never hold a key twice). -/
def lookupKey : List (String × Value) → String → Option Value
  | [], _ => none
  | (k', v') :: rest, k => if k' = k then some v' else lookupKey rest k

/-- JavaScript property assignment on an association list: overwrite the value
in place if the key is present (keeping its position), append otherwise. -/
def setKey : List (String × Value) → String → Value → List (String × Value)
  | [], k, v => [(k, v)]
  | (k', v') :: rest, k, v => if k' = k then (k', v) :: rest else (k', v') :: setKey rest k v

/-- JavaScript `delete object[key]` on an association list. -/
def delKey : List (String × Value) → String → List (String × Value)
  | [], _ => []
  | (k', v') :: rest, k => if k' = k then rest else (k', v') :: delKey rest k

mutual

/-- Modelled from the spec: the engine's recursive whole-value deep copy
(§4.2 step 6) — fresh containers at every level, contents unchanged. -/
def deepCopy : Value → Value
  | .obj fs => .obj (copyFields fs)
  | .arr es => .arr (copyList es)
  | v => v

/-- Modelled from the spec: deep copy of a mapping's fields. -/
def copyFields : List (String × Value) → List (String × Value)
  | [] => []
  | (k, v) :: rest => (k, deepCopy v) :: copyFields rest

/-- Modelled from the spec: deep copy of a sequence's elements. -/
def copyList : List Value → List Value
  | [] => []
  | v :: rest => deepCopy v :: copyList rest

end

mutual

/-- Modelled from the spec: the two-value merge step of the Merge Engine
(§4.2, steps 2-6), as implemented by the external `object-assign-deep`
package this repository delegates to (that package's code is not among the
sources).  Right-hand mapping merges into a left-hand mapping per key and
deep-copies wholesale otherwise; right-hand sequences concatenate under
`merge` when the left is also a sequence and deep-copy over the left
otherwise; scalars replace.  The engine itself has no null/undefined
suppression: every suppression in this repository happens in the wrappers
(see `extendJS`), and the spec fixes `ignoreNull=false, ignoreUndefined=false`
for the engine entry points the wrappers call (§6, `merge`). -/
def mergeTwo (ab : ArrayBehaviour) : Value → Value → Value
  | l, .obj rfs =>
    match l with
    | .obj lfs => .obj (mergeFieldsList ab lfs rfs)
    | _ => .obj (copyFields rfs)
  | l, .arr res =>
    match l with
    | .arr les => if ab = .merge then .arr (copyList les ++ copyList res) else .arr (copyList res)
    | _ => .arr (copyList res)
  | _, r => r

/-- Modelled from the spec: per-key merge of right-hand fields into left-hand
fields, sequentially in the right-hand mapping's key order (§4.2 step 2: keys
of both sides, recursively merging values present in both, deep-copying values
present in one side only). -/
def mergeFieldsList (ab : ArrayBehaviour) (lfs : List (String × Value)) :
    List (String × Value) → List (String × Value)
  | [] => lfs
  | (k, rv) :: rest =>
    mergeFieldsList ab (setKey lfs k (mergeTwo ab ((lookupKey lfs k).getD .vUndef) rv)) rest

end

/-- Modelled from the spec: `objectAssignDeep.withOptions(target, objects,
{ arrayBehaviour })` — the multi-value fold (§4.2), pairwise left-to-right,
seeded at the given target. -/
def objectAssignDeepWithOptions (target : Value) (objects : List Value)
    (ab : ArrayBehaviour) : Value :=
  objects.foldl (mergeTwo ab) target

/-- Modelled from the spec: `objectAssignDeep.noMutate(...objects)` — the fold
seeded at a fresh empty mapping (§4.2: non-mutating entry points start from an
empty Mapping; §6: `ignoreNull=false, ignoreUndefined=false`). -/
def objectAssignDeepNoMutate (objects : List Value) : Value :=
  objects.foldl (mergeTwo .replace) (.obj [])

/-- Modelled from the spec: `objectAssignDeep(target, ...objects)` — the
mutating fold, seeded at the first input directly (§4.2); this is the value
the target holds after the call. -/
def objectAssignDeepMutate (target : Value) (objects : List Value) : Value :=
  objects.foldl (mergeTwo .replace) target

/-- Translated from `clone` (src/objectExtender.js lines 316-318):
`objectAssignDeep.noMutate(object)`. -/
def cloneJS (object : Value) : Value :=
  objectAssignDeepNoMutate [object]

/-- Translated from `merge` (src/objectExtender.js lines 302-304):
`objectAssignDeep.noMutate(...objects)`. -/
def mergeJS (objects : List Value) : Value :=
  objectAssignDeepNoMutate objects

/-- Translated from `mergeInto` (src/objectExtender.js lines 309-311), value
level: the content the mutated target holds (and the call returns) afterwards.
The reference-identity and mutation facets are settled in the heap model
below. -/
def mergeIntoPure (target : Value) (objects : List Value) : Value :=
  objectAssignDeepMutate target objects

/-- Translated from `defaults` (src/objectExtender.js lines 355-357):
`objectAssignDeep.noMutate(defaultValues, actualValues, readOnlyValues)`;
callers omitting `readOnlyValues` pass the empty mapping (default parameter
`readOnlyValues = {}`). -/
def defaultsJS (defaultValues actualValues readOnlyValues : Value) : Value :=
  objectAssignDeepNoMutate [defaultValues, actualValues, readOnlyValues]

/-- Translated from the export table (src/objectExtender.js lines 362-370):
`copy` is bound to the very same function as `clone`. -/
def copyJS : Value → Value := cloneJS

/-- Translated from the export table (src/objectExtender.js lines 362-370),
value level: `mixin` is bound to the very same function as `mergeInto`. -/
def mixinPure : Value → List Value → Value := mergeIntoPure

/-- Options record for `extend` (src/objectExtender.js line 276, `_options`):
a field is `none` when the caller omitted it.  (A caller passing the literal
JavaScript value `undefined` for an option is outside this record's domain;
no claim exercises that corner.) -/
structure ExtendOptions where
  ignoreNull : Option Bool := none
  ignoreUndefined : Option Bool := none
  arrayBehaviour : Option ArrayBehaviour := none

/-- Translated from `removeUndesirableProperties` (src/objectExtender.js lines
248-271), effect on the argument object: nested (non-array) `typeof ===
'object'` values are descended into — and `typeof null === 'object'`, so a
null value takes the descend branch (a no-op) and is never deleted; an
undefined value is deleted when `ignoreUndefined` is set; everything else is
kept. -/
def pruneFields (ignN ignU : Bool) : List (String × Value) → List (String × Value)
  | [] => []
  | (k, v) :: rest =>
    match v with
    | .obj fs => (k, .obj (pruneFields ignN ignU fs)) :: pruneFields ignN ignU rest
    | .vNull => (k, .vNull) :: pruneFields ignN ignU rest
    | .vUndef =>
      if ignU then pruneFields ignN ignU rest else (k, .vUndef) :: pruneFields ignN ignU rest
    | w =>
      -- For the remaining scalars and arrays, the deletion test
      -- `(typeof === 'undefined' && ignoreUndefined) || (=== null && ignoreNull)`
      -- is false (the null case was already captured by the descend branch
      -- above, exactly as in the source), so the property is kept.
      (k, w) :: pruneFields ignN ignU rest

/-- Translated from `removeUndesirableProperties` (src/objectExtender.js lines
248-271), returned value: the function returns its argument on the early
`return object` when both flags are false, and otherwise runs the pruning loop
and falls off the end of the function body — JavaScript then returns
`undefined`. -/
def removeUndesirablePropertiesRet (ignN ignU : Bool) (object : Value) : Value :=
  if ignN = false ∧ ignU = false then object else (.vUndef)

/-- Translated from the loop of `extend` (src/objectExtender.js lines 287-292):
for each input, clone it, then push the RETURN VALUE of
`removeUndesirableProperties` on the clone; the loop distinguishes only
`index === 0` (which gets `ignoreNull: false`), modelled by the `first`
flag. -/
def extendPushed (ignN ignU : Bool) : Bool → List Value → List Value
  | _, [] => []
  | first, o :: rest =>
    removeUndesirablePropertiesRet (if first then false else ignN) ignU (cloneJS o)
      :: extendPushed ignN ignU false rest

/-- Translated from `extend` (src/objectExtender.js lines 276-297): resolve
options against the defaults `{ ignoreNull: true, ignoreUndefined: true,
arrayBehaviour: 'replace' }`; for each input, clone it, then push the RETURN
VALUE of `removeUndesirableProperties` on the clone (index 0 gets
`ignoreNull: false`); finally merge the pushed values into a fresh empty
target with `objectAssignDeep.withOptions`. -/
def extendJS (objects : List Value) (opts : ExtendOptions) : Value :=
  let ignN := opts.ignoreNull.getD true
  let ignU := opts.ignoreUndefined.getD true
  let ab := opts.arrayBehaviour.getD .replace
  objectAssignDeepWithOptions (.obj []) (extendPushed ignN ignU true objects) ab

/-- Written from the spec's words (§4.1): is a right-hand value treated as
absent under the suppression policy? -/
def specSuppressed (ignN ignU : Bool) : Value → Bool
  | .vNull => ignN
  | .vUndef => ignU
  | _ => false

mutual

/-- Written from the spec's words (§4.1): deep copy that drops suppressed
values of a mapping ("dropped from the result if no prior value exists"). -/
def specCopyOne (ignN ignU : Bool) : Value → Value
  | .obj fs => .obj (specCopyFields ignN ignU fs)
  | .arr es => .arr (specCopyList ignN ignU es)
  | v => v

/-- Written from the spec's words: field-wise copy dropping suppressed values. -/
def specCopyFields (ignN ignU : Bool) : List (String × Value) → List (String × Value)
  | [] => []
  | (k, v) :: rest =>
    if specSuppressed ignN ignU v then specCopyFields ignN ignU rest
    else (k, specCopyOne ignN ignU v) :: specCopyFields ignN ignU rest

/-- Written from the spec's words: element-wise copy of a sequence (suppression
concerns mapping keys, not sequence elements). -/
def specCopyList (ignN ignU : Bool) : List Value → List Value
  | [] => []
  | v :: rest => specCopyOne ignN ignU v :: specCopyList ignN ignU rest

end

mutual

/-- Written from the spec's words (§4.2): the two-value merge step including
step 1, the `ignoreNull`/`ignoreUndefined` suppression policy.  This is the
spec-side definition used to compare the repository's entry points against the
fold the spec attributes to them. -/
def specMergeTwo (ignN ignU : Bool) (ab : ArrayBehaviour) : Value → Value → Value
  | l, .obj rfs =>
    match l with
    | .obj lfs => .obj (specMergeFields ignN ignU ab lfs rfs)
    | _ => .obj (specCopyFields ignN ignU rfs)
  | l, .arr res =>
    match l with
    | .arr les =>
      if ab = .merge then .arr (specCopyList ignN ignU les ++ specCopyList ignN ignU res)
      else .arr (specCopyList ignN ignU res)
    | _ => .arr (specCopyList ignN ignU res)
  | _, r => r

/-- Written from the spec's words (§4.2 steps 1-2): per-key merge where a
suppressed right-hand value keeps the left-hand value when one exists and is
dropped otherwise. -/
def specMergeFields (ignN ignU : Bool) (ab : ArrayBehaviour) (lfs : List (String × Value)) :
    List (String × Value) → List (String × Value)
  | [] => lfs
  | (k, rv) :: rest =>
    if specSuppressed ignN ignU rv then specMergeFields ignN ignU ab lfs rest
    else
      specMergeFields ignN ignU ab
        (setKey lfs k (specMergeTwo ignN ignU ab ((lookupKey lfs k).getD .vUndef) rv)) rest

end

/-- Written from the spec's words (§4.2): the multi-value fold with suppression
policy, seeded at an empty mapping, the first input exempt from suppression
("suppression only governs whether a later input's null/undefined can clobber
an earlier real value, never the first input's own content"). -/
def specFold (ignN ignU : Bool) (ab : ArrayBehaviour) : List Value → Value
  | [] => .obj []
  | v :: vs => vs.foldl (specMergeTwo ignN ignU ab) (mergeTwo ab (.obj []) v)

/-- Distinctness of the keys of an association list, as a computable test. -/
def keysDistinct : List (String × Value) → Bool
  | [] => true
  | (k, _) :: rest => !(rest.any (fun p => p.1 == k)) && keysDistinct rest

mutual

/-- Well-formedness of a value as the image of a real JavaScript value: every
mapping binds each key at most once, recursively. -/
def wfValue : Value → Bool
  | .obj fs => keysDistinct fs && wfFields fs
  | .arr es => wfList es
  | _ => true

/-- Well-formedness of a mapping's fields. -/
def wfFields : List (String × Value) → Bool
  | [] => true
  | (_, v) :: rest => wfValue v && wfFields rest

/-- Well-formedness of a sequence's elements. -/
def wfList : List Value → Bool
  | [] => true
  | v :: rest => wfValue v && wfList rest

end

/-! Basic lemmas about the engine's deep copy and the association-list
operations. -/

mutual

theorem deepCopy_eq_self : ∀ v, deepCopy v = v
  | .vNull => rfl
  | .vUndef => rfl
  | .vStr _ => rfl
  | .vNum _ => rfl
  | .vBool _ => rfl
  | .arr _ => by rw [deepCopy, copyList_eq_self]
  | .obj _ => by rw [deepCopy, copyFields_eq_self]

theorem copyFields_eq_self : ∀ fs, copyFields fs = fs
  | [] => rfl
  | (_, _) :: _ => by rw [copyFields, deepCopy_eq_self, copyFields_eq_self]

theorem copyList_eq_self : ∀ es, copyList es = es
  | [] => rfl
  | _ :: _ => by rw [copyList, deepCopy_eq_self, copyList_eq_self]

end

theorem specSuppressed_no_flags : ∀ v, specSuppressed false false v = false
  | .vNull => rfl
  | .vUndef => rfl
  | .vStr _ => rfl
  | .vNum _ => rfl
  | .vBool _ => rfl
  | .arr _ => rfl
  | .obj _ => rfl

mutual

theorem specCopyOne_no_flags : ∀ v, specCopyOne false false v = deepCopy v
  | .vNull => rfl
  | .vUndef => rfl
  | .vStr _ => rfl
  | .vNum _ => rfl
  | .vBool _ => rfl
  | .arr _ => by rw [specCopyOne, deepCopy, specCopyList_no_flags]
  | .obj _ => by rw [specCopyOne, deepCopy, specCopyFields_no_flags]

theorem specCopyFields_no_flags : ∀ fs, specCopyFields false false fs = copyFields fs
  | [] => rfl
  | (k, v) :: rest => by
    rw [specCopyFields, copyFields, specSuppressed_no_flags, specCopyOne_no_flags,
      specCopyFields_no_flags rest]
    simp

theorem specCopyList_no_flags : ∀ es, specCopyList false false es = copyList es
  | [] => rfl
  | _ :: _ => by rw [specCopyList, copyList, specCopyOne_no_flags, specCopyList_no_flags]

end

mutual

theorem specMergeTwo_no_flags (ab : ArrayBehaviour) :
    ∀ l r, specMergeTwo false false ab l r = mergeTwo ab l r
  | l, .obj rfs => by
    cases l <;>
      simp only [specMergeTwo, mergeTwo, specMergeFields_no_flags, specCopyFields_no_flags]
  | l, .arr res => by
    cases l <;>
      simp only [specMergeTwo, mergeTwo, specCopyList_no_flags]
  | l, .vNull => by cases l <;> rfl
  | l, .vUndef => by cases l <;> rfl
  | l, .vStr _ => by cases l <;> rfl
  | l, .vNum _ => by cases l <;> rfl
  | l, .vBool _ => by cases l <;> rfl

theorem specMergeFields_no_flags (ab : ArrayBehaviour) :
    ∀ lfs rfs, specMergeFields false false ab lfs rfs = mergeFieldsList ab lfs rfs
  | lfs, [] => rfl
  | lfs, (k, rv) :: rest => by
    rw [specMergeFields, mergeFieldsList, specSuppressed_no_flags, specMergeTwo_no_flags]
    simp only [Bool.false_eq_true, if_false]
    exact specMergeFields_no_flags ab _ rest

end

theorem lookup_setKey_self : ∀ (fs : List (String × Value)) (k : String) (v : Value),
    lookupKey (setKey fs k v) k = some v
  | [], k, v => by simp [setKey, lookupKey]
  | (k', v') :: rest, k, v => by
    by_cases h : k' = k <;> simp [setKey, lookupKey, h, lookup_setKey_self rest k v]

theorem lookup_setKey_ne : ∀ (fs : List (String × Value)) (k' k : String) (v : Value),
    k' ≠ k → lookupKey (setKey fs k' v) k = lookupKey fs k
  | [], k', k, v, h => by simp [setKey, lookupKey, h]
  | (k'', v'') :: rest, k', k, v, h => by
    by_cases h2 : k'' = k'
    · subst h2
      simp [setKey, lookupKey, h]
    · by_cases h3 : k'' = k
      · subst h3
        simp [setKey, lookupKey, h2]
      · simp [setKey, lookupKey, h2, h3, lookup_setKey_ne rest k' k v h]

theorem setKey_of_lookup_none : ∀ (fs : List (String × Value)) (k : String) (v : Value),
    lookupKey fs k = none → setKey fs k v = fs ++ [(k, v)]
  | [], k, v, _ => rfl
  | (k', v') :: rest, k, v, h => by
    by_cases h2 : k' = k <;>
      simp [setKey, lookupKey, h2] at h ⊢
    exact setKey_of_lookup_none rest k v h

theorem lookupKey_append_of_none : ∀ (l1 l2 : List (String × Value)) (k : String),
    lookupKey l1 k = none → lookupKey (l1 ++ l2) k = lookupKey l2 k
  | [], l2, k, _ => rfl
  | (k', v') :: rest, l2, k, h => by
    by_cases h2 : k' = k <;> simp [lookupKey, h2] at h ⊢
    exact lookupKey_append_of_none rest l2 k h

theorem mergeTwo_undef_left (ab : ArrayBehaviour) (r : Value) :
    mergeTwo ab .vUndef r = deepCopy r := by
  cases r <;> rfl

/-- Values the engine assigns verbatim in its catch-all branch (step 5):
everything that is neither a mapping nor a sequence. -/
def isScalar : Value → Bool
  | .arr _ => false
  | .obj _ => false
  | _ => true

theorem mergeTwo_scalar_right (ab : ArrayBehaviour) (l r : Value) (h : isScalar r = true) :
    mergeTwo ab l r = r := by
  cases r <;> first
    | (cases l <;> rfl)
    | simp [isScalar] at h

theorem keysDistinct_cons_iff (k : String) (v : Value) (rest : List (String × Value)) :
    keysDistinct ((k, v) :: rest) = true ↔
      (∀ p ∈ rest, ¬(p.1 = k)) ∧ keysDistinct rest = true := by
  simp [keysDistinct]

theorem mergeFieldsList_disjoint (ab : ArrayBehaviour) :
    ∀ (rfs lfs : List (String × Value)), keysDistinct rfs = true →
    (∀ p ∈ rfs, lookupKey lfs p.1 = none) →
    mergeFieldsList ab lfs rfs = lfs ++ copyFields rfs
  | [], lfs, _, _ => by simp [mergeFieldsList, copyFields]
  | (k, rv) :: rest, lfs, hd, hnone => by
    have hparts := (keysDistinct_cons_iff k rv rest).mp hd
    have hk : lookupKey lfs k = none := hnone (k, rv) (by simp)
    have hnone2 : ∀ p ∈ rest, lookupKey (lfs ++ [(k, deepCopy rv)]) p.1 = none := by
      intro p hp
      rw [lookupKey_append_of_none lfs [(k, deepCopy rv)] p.1 (hnone p (by simp [hp]))]
      have hne : ¬(k = p.1) := fun he => hparts.1 p hp he.symm
      simp [lookupKey, hne]
    rw [mergeFieldsList, hk]
    simp only [Option.getD_none]
    rw [mergeTwo_undef_left, setKey_of_lookup_none lfs k (deepCopy rv) hk,
      mergeFieldsList_disjoint ab rest (lfs ++ [(k, deepCopy rv)]) hparts.2 hnone2]
    simp [copyFields]

/-- Top-level property lookup on a value (none on non-mappings). -/
def topLookup : Value → String → Option Value
  | .obj fs, k => lookupKey fs k
  | _, _ => none

theorem cloneJS_eq_self (x : Value) (h : wfValue x = true) : cloneJS x = x := by
  cases x with
  | obj fs =>
    have hd : keysDistinct fs = true := by
      simp [wfValue, Bool.and_eq_true] at h
      exact h.1
    show mergeTwo .replace (.obj []) (.obj fs) = .obj fs
    have : mergeTwo .replace (.obj []) (.obj fs) = .obj (mergeFieldsList .replace [] fs) := rfl
    rw [this, mergeFieldsList_disjoint .replace fs [] hd (fun p _ => rfl)]
    rw [copyFields_eq_self]
    rfl
  | arr es =>
    show mergeTwo .replace (.obj []) (.arr es) = .arr es
    have : mergeTwo .replace (.obj []) (.arr es) = .arr (copyList es) := rfl
    rw [this, copyList_eq_self]
  | vNull => rfl
  | vUndef => rfl
  | vStr _ => rfl
  | vNum _ => rfl
  | vBool _ => rfl

theorem mergeFieldsList_lookup_frozen (ab : ArrayBehaviour) :
    ∀ (rfs lfs : List (String × Value)) (k : String),
    (∀ p ∈ rfs, ¬(p.1 = k)) →
    lookupKey (mergeFieldsList ab lfs rfs) k = lookupKey lfs k
  | [], _, _, _ => rfl
  | (k', rv) :: rest, lfs, k, h => by
    rw [mergeFieldsList,
      mergeFieldsList_lookup_frozen ab rest _ k (fun p hp => h p (by simp [hp]))]
    exact lookup_setKey_ne lfs k' k _ (h (k', rv) (by simp))

theorem mergeFieldsList_lookup_scalar (ab : ArrayBehaviour) :
    ∀ (rfs lfs : List (String × Value)) (k : String) (v : Value),
    keysDistinct rfs = true → lookupKey rfs k = some v → isScalar v = true →
    lookupKey (mergeFieldsList ab lfs rfs) k = some v
  | [], _, _, _, _, hl, _ => by simp [lookupKey] at hl
  | (k', rv) :: rest, lfs, k, v, hd, hl, hs => by
    have hparts := (keysDistinct_cons_iff k' rv rest).mp hd
    by_cases he : k' = k
    · subst he
      rw [lookupKey] at hl
      simp at hl
      subst hl
      rw [mergeFieldsList, mergeFieldsList_lookup_frozen ab rest _ k' hparts.1,
        lookup_setKey_self, mergeTwo_scalar_right ab _ rv hs]
    · rw [mergeFieldsList]
      apply mergeFieldsList_lookup_scalar ab rest _ k v hparts.2 _ hs
      rw [lookupKey] at hl
      simpa [he] using hl

theorem mergeTwo_obj_lookup_scalar (ab : ArrayBehaviour) (l : Value)
    (fs : List (String × Value)) (k : String) (v : Value)
    (hd : keysDistinct fs = true) (hl : lookupKey fs k = some v) (hs : isScalar v = true) :
    topLookup (mergeTwo ab l (.obj fs)) k = some v := by
  cases l
  case obj lfs =>
    show lookupKey (mergeFieldsList ab lfs fs) k = some v
    exact mergeFieldsList_lookup_scalar ab fs lfs k v hd hl hs
  all_goals
    show lookupKey (copyFields fs) k = some v
  all_goals rw [copyFields_eq_self]
  all_goals exact hl

theorem foldl_specMergeTwo_no_flags (ab : ArrayBehaviour) (vs : List Value) (acc : Value) :
    vs.foldl (specMergeTwo false false ab) acc = vs.foldl (mergeTwo ab) acc := by
  induction vs generalizing acc with
  | nil => rfl
  | cons v rest ih => rw [List.foldl_cons, List.foldl_cons, specMergeTwo_no_flags, ih]

theorem merge_eq_specFold (objects : List Value) :
    mergeJS objects = specFold false false .replace objects := by
  cases objects with
  | nil => rfl
  | cons v vs =>
    show (v :: vs).foldl (mergeTwo .replace) (.obj []) = _
    rw [List.foldl_cons, specFold, foldl_specMergeTwo_no_flags]

theorem defaults_eq_specFold (d a r : Value) :
    defaultsJS d a r = specFold false false .replace [d, a, r] := by
  show List.foldl (mergeTwo .replace) (.obj []) [d, a, r] = _
  rw [specFold]
  simp [List.foldl, specMergeTwo_no_flags]

theorem merge_concat_last (os : List Value) (m : Value) :
    mergeJS (os ++ [m]) = mergeTwo .replace (mergeJS os) m := by
  show List.foldl (mergeTwo .replace) (.obj []) (os ++ [m]) = _
  rw [List.foldl_append]
  rfl

/-! Claim theorems on the value level.  (The heap model for the aliasing and
mutation claims follows further below.) -/

/-- C1: evaluating the claim's two `extend` calls on the code as written.
`removeUndesirableProperties` has no final return statement, so whenever
`ignoreNull || ignoreUndefined` holds (in particular under the default options
and under `ignoreNull: false`, where `ignoreUndefined` still defaults to true)
`extend` pushes `undefined` for every input object and the merge of those
undefined values is `undefined` — not the mappings the claim states. -/
theorem c1_extend_eval :
    extendJS [.obj [("a", .vNum 1), ("b", .vNum 2)], .obj [("a", .vNull), ("c", .vNum 3)]] {}
      = .vUndef
  ∧ extendJS [.obj [("a", .vNum 1), ("b", .vNum 2)], .obj [("a", .vNull), ("c", .vNum 3)]]
      { ignoreNull := some false } = .vUndef
  ∧ Value.vUndef ≠ .obj [("a", .vNum 1), ("b", .vNum 2), ("c", .vNum 3)]
  ∧ Value.vUndef ≠ .obj [("a", .vNull), ("b", .vNum 2), ("c", .vNum 3)] :=
  ⟨rfl, rfl, fun h => Value.noConfusion h, fun h => Value.noConfusion h⟩

/-- C2: with the default options, a first input carrying a null value does not
survive into the result — the call returns `undefined`, which is not a mapping
at all, so no content of the first input is preserved. -/
theorem c2_first_input_eval :
    extendJS [.obj [("a", .vNull), ("b", .vNum 1)]] {} = .vUndef
  ∧ (∀ fs, Value.vUndef ≠ .obj fs) :=
  ⟨rfl, fun _ h => Value.noConfusion h⟩

/-- C3 counterexample: `defaults` is `objectAssignDeep.noMutate`, which has no
undefined suppression: an undefined actual value overwrites the default value
`1`, while the fold the claim describes (`ignoreUndefined=true`,
`ignoreNull=false`) keeps `1`. -/
theorem c3_defaults_counterexample :
    defaultsJS (.obj [("p", .vNum 1)]) (.obj [("p", .vUndef)]) (.obj [])
      = .obj [("p", .vUndef)]
  ∧ specFold false true .replace [.obj [("p", .vNum 1)], .obj [("p", .vUndef)], .obj []]
      = .obj [("p", .vNum 1)]
  ∧ Value.obj [("p", .vUndef)] ≠ .obj [("p", .vNum 1)] :=
  ⟨rfl, rfl, by simp⟩

/-- C3 (amended): `defaults(d, a, r)` is the fold of `[d, a, r]` with
`ignoreUndefined=false` and `ignoreNull=false` — later values win per deep
merge, and a null or undefined value in `a` or `r` does overwrite an earlier
real value; the claim's concrete example holds as stated. -/
theorem c3_defaults_amended :
    (∀ d a r, defaultsJS d a r = specFold false false .replace [d, a, r])
  ∧ defaultsJS (.obj [("prop1", .vStr "Hello"), ("special", .vNull)])
      (.obj [("prop1", .vStr "Josh"), ("special", .vBool false)])
      (.obj [("special", .vBool true)])
      = .obj [("prop1", .vStr "Josh"), ("special", .vBool true)] :=
  ⟨defaults_eq_specFold, rfl⟩

/-- C6: evaluating the claim's two array calls on the code as written: both
return `undefined` (see `c1_extend_eval` for the cause), not the mappings the
claim states. -/
theorem c6_extend_arrays_eval :
    extendJS [.obj [("arr", .arr [.vNum 1, .vNum 2, .vNum 4])],
      .obj [("arr", .arr [.vNum 5, .vNum 6, .vNum 7])]] {} = .vUndef
  ∧ extendJS [.obj [("arr", .arr [.vNum 1, .vNum 2, .vNum 4])],
      .obj [("arr", .arr [.vNum 5, .vNum 6, .vNum 7])]]
      { arrayBehaviour := some .merge } = .vUndef
  ∧ Value.vUndef ≠ .obj [("arr", .arr [.vNum 5, .vNum 6, .vNum 7])]
  ∧ Value.vUndef ≠ .obj [("arr", .arr [.vNum 1, .vNum 2, .vNum 4, .vNum 5, .vNum 6, .vNum 7])] :=
  ⟨rfl, rfl, fun h => Value.noConfusion h, fun h => Value.noConfusion h⟩

/-- C7: on well-formed acyclic values (mappings never repeat a key — true of
every real JavaScript object), `clone` is content-preserving and hence
idempotent: `clone (clone x) = clone x` and `clone x = x`, as structural
equality, which entails deep equality. -/
theorem c7_clone_idempotent (x : Value) (h : wfValue x = true) :
    cloneJS (cloneJS x) = cloneJS x ∧ cloneJS x = x := by
  have h1 := cloneJS_eq_self x h
  rw [h1]
  exact ⟨h1, rfl⟩

/-- C7 witness: the theorem applied at a concrete nested value. -/
theorem c7_clone_idempotent_witness :
    cloneJS (cloneJS (.obj [("a", .vNum 1), ("b", .arr [.vNum 2, .obj [("c", .vNull)]])]))
        = cloneJS (.obj [("a", .vNum 1), ("b", .arr [.vNum 2, .obj [("c", .vNull)]])])
  ∧ cloneJS (.obj [("a", .vNum 1), ("b", .arr [.vNum 2, .obj [("c", .vNull)]])])
        = .obj [("a", .vNum 1), ("b", .arr [.vNum 2, .obj [("c", .vNull)]])] :=
  c7_clone_idempotent (.obj [("a", .vNum 1), ("b", .arr [.vNum 2, .obj [("c", .vNull)]])]) rfl

/-! Termination layer for C9: fuelled mirrors of the recursive procedures.
The JavaScript recursions (the engine's merge/copy and the pruning pass) are
recursions over heap structures, which a priori terminate only on acyclic
inputs; the fuelled functions make that explicit, and the sufficiency theorem
shows that on every acyclic input enough fuel exists and the result is the
value of the total model. -/

mutual

/-- Fuelled mirror of `deepCopy`. -/
def deepCopyF : Nat → Value → Option Value
  | 0, _ => none
  | n + 1, .obj fs => (copyFieldsF n fs).map .obj
  | n + 1, .arr es => (copyListF n es).map .arr
  | _ + 1, v => some v

/-- Fuelled mirror of `copyFields`. -/
def copyFieldsF : Nat → List (String × Value) → Option (List (String × Value))
  | 0, _ => none
  | _ + 1, [] => some []
  | n + 1, (k, v) :: rest => do
    let v2 ← deepCopyF n v
    let rest2 ← copyFieldsF n rest
    some ((k, v2) :: rest2)

/-- Fuelled mirror of `copyList`. -/
def copyListF : Nat → List Value → Option (List Value)
  | 0, _ => none
  | _ + 1, [] => some []
  | n + 1, v :: rest => do
    let v2 ← deepCopyF n v
    let rest2 ← copyListF n rest
    some (v2 :: rest2)

/-- Fuelled mirror of `mergeTwo`. -/
def mergeTwoF : Nat → ArrayBehaviour → Value → Value → Option Value
  | 0, _, _, _ => none
  | n + 1, ab, l, .obj rfs =>
    match l with
    | .obj lfs => (mergeFieldsListF n ab lfs rfs).map .obj
    | _ => (copyFieldsF n rfs).map .obj
  | n + 1, ab, l, .arr res =>
    match l with
    | .arr les =>
      if ab = .merge then do
        let a ← copyListF n les
        let b ← copyListF n res
        some (.arr (a ++ b))
      else (copyListF n res).map .arr
    | _ => (copyListF n res).map .arr
  | _ + 1, _, _, r => some r

/-- Fuelled mirror of `mergeFieldsList`. -/
def mergeFieldsListF : Nat → ArrayBehaviour → List (String × Value) → List (String × Value) →
    Option (List (String × Value))
  | 0, _, _, _ => none
  | _ + 1, _, lfs, [] => some lfs
  | n + 1, ab, lfs, (k, rv) :: rest => do
    let v2 ← mergeTwoF n ab ((lookupKey lfs k).getD .vUndef) rv
    mergeFieldsListF n ab (setKey lfs k v2) rest

end

/-- Fuelled mirror of `pruneFields` (the recursion actually run by
`removeUndesirableProperties`). -/
def pruneFieldsF : Nat → Bool → Bool → List (String × Value) → Option (List (String × Value))
  | 0, _, _, _ => none
  | _ + 1, _, _, [] => some []
  | n + 1, ignN, ignU, (k, v) :: rest =>
    match v with
    | .obj fs => do
      let fs2 ← pruneFieldsF n ignN ignU fs
      let rest2 ← pruneFieldsF n ignN ignU rest
      some ((k, .obj fs2) :: rest2)
    | .vNull => (pruneFieldsF n ignN ignU rest).map (fun r => (k, .vNull) :: r)
    | .vUndef =>
      if ignU then pruneFieldsF n ignN ignU rest
      else (pruneFieldsF n ignN ignU rest).map (fun r => (k, .vUndef) :: r)
    | w => (pruneFieldsF n ignN ignU rest).map (fun r => (k, w) :: r)

/-- Fuelled pruning of a whole value (non-mappings have no own enumerable
properties and come back untouched). -/
def pruneValueF (n : Nat) (ignN ignU : Bool) : Value → Option Value
  | .obj fs => (pruneFieldsF n ignN ignU fs).map .obj
  | v => some v

/-- Fuelled left fold of the engine's two-value step. -/
def foldMergeF (n : Nat) (ab : ArrayBehaviour) : Value → List Value → Option Value
  | acc, [] => some acc
  | acc, r :: rest => do
    let acc2 ← mergeTwoF n ab acc r
    foldMergeF n ab acc2 rest

/-- Fuelled mirror of `cloneJS`. -/
def cloneJSF (n : Nat) (object : Value) : Option Value :=
  foldMergeF n .replace (.obj []) [object]

/-- Fuelled mirror of `mergeJS`. -/
def mergeJSF (n : Nat) (objects : List Value) : Option Value :=
  foldMergeF n .replace (.obj []) objects

/-- Fuelled mirror of `mergeIntoPure`. -/
def mergeIntoJSF (n : Nat) (target : Value) (objects : List Value) : Option Value :=
  foldMergeF n .replace target objects

/-- Fuelled mirror of `defaultsJS`. -/
def defaultsJSF (n : Nat) (d a r : Value) : Option Value :=
  foldMergeF n .replace (.obj []) [d, a, r]

/-- Fuelled mirror of `extendPushed`, running the pruning pass for its effects
exactly as `extend` does before discarding the clone and pushing the
undefined return value. -/
def extendPushedF (n : Nat) (ignN ignU : Bool) : Bool → List Value → Option (List Value)
  | _, [] => some []
  | first, o :: rest =>
    (cloneJSF n o).bind fun c =>
      (if (if first = true then false else ignN) = false ∧ ignU = false then some c
        else (pruneValueF n (if first = true then false else ignN) ignU c).bind fun _ =>
          some Value.vUndef).bind fun v =>
        (extendPushedF n ignN ignU false rest).bind fun rest2 =>
          some (v :: rest2)

/-- Fuelled mirror of `extendJS`. -/
def extendJSF (n : Nat) (objects : List Value) (opts : ExtendOptions) : Option Value :=
  (extendPushedF n (opts.ignoreNull.getD true) (opts.ignoreUndefined.getD true)
      true objects).bind fun pushed =>
    foldMergeF n (opts.arrayBehaviour.getD .replace) (.obj []) pushed

theorem engineF_mono : ∀ n m : Nat, n ≤ m →
    (∀ v x, deepCopyF n v = some x → deepCopyF m v = some x)
  ∧ (∀ fs x, copyFieldsF n fs = some x → copyFieldsF m fs = some x)
  ∧ (∀ es x, copyListF n es = some x → copyListF m es = some x)
  ∧ (∀ ab l r x, mergeTwoF n ab l r = some x → mergeTwoF m ab l r = some x)
  ∧ (∀ ab lfs rfs x, mergeFieldsListF n ab lfs rfs = some x →
      mergeFieldsListF m ab lfs rfs = some x) := by
  intro n
  induction n with
  | zero =>
    intro m _
    refine ⟨?_, ?_, ?_, ?_, ?_⟩ <;> intros <;> simp [deepCopyF, copyFieldsF, copyListF,
      mergeTwoF, mergeFieldsListF] at *
  | succ n ih =>
    intro m hm
    obtain ⟨m', rfl⟩ : ∃ m', m = m' + 1 := ⟨m - 1, by omega⟩
    have ihm := ih m' (by omega)
    refine ⟨?_, ?_, ?_, ?_, ?_⟩
    · intro v x h
      cases v <;>
        simp only [deepCopyF, Option.map_eq_some'] at h ⊢ <;>
        try exact h
      · obtain ⟨y, hy, hx⟩ := h
        exact ⟨y, ihm.2.2.1 _ y hy, hx⟩
      · obtain ⟨y, hy, hx⟩ := h
        exact ⟨y, ihm.2.1 _ y hy, hx⟩
    · intro fs x h
      cases fs with
      | nil => exact h
      | cons p rest =>
        obtain ⟨k, v⟩ := p
        simp only [copyFieldsF, Option.bind_eq_bind, Option.bind_eq_some] at h ⊢
        obtain ⟨y, hy, z, hz, hx⟩ := h
        exact ⟨y, ihm.1 v y hy, z, ihm.2.1 rest z hz, hx⟩
    · intro es x h
      cases es with
      | nil => exact h
      | cons v rest =>
        simp only [copyListF, Option.bind_eq_bind, Option.bind_eq_some] at h ⊢
        obtain ⟨y, hy, z, hz, hx⟩ := h
        exact ⟨y, ihm.1 v y hy, z, ihm.2.2.1 rest z hz, hx⟩
    · intro ab l r x h
      cases r with
      | obj rfs =>
        cases l <;>
          simp only [mergeTwoF, Option.map_eq_some'] at h ⊢ <;>
          obtain ⟨y, hy, hx⟩ := h <;>
          first
            | exact ⟨y, ihm.2.2.2.2 ab _ rfs y hy, hx⟩
            | exact ⟨y, ihm.2.1 rfs y hy, hx⟩
      | arr res =>
        cases l with
        | arr les =>
          by_cases hab : ab = ArrayBehaviour.merge
          · simp only [mergeTwoF, hab, if_true, Option.bind_eq_bind, Option.bind_eq_some]
              at h ⊢
            obtain ⟨y, hy, z, hz, hx⟩ := h
            exact ⟨y, ihm.2.2.1 les y hy, z, ihm.2.2.1 res z hz, hx⟩
          · simp only [mergeTwoF, hab, if_false, Option.map_eq_some'] at h ⊢
            obtain ⟨y, hy, hx⟩ := h
            exact ⟨y, ihm.2.2.1 res y hy, hx⟩
        | _ =>
          simp only [mergeTwoF, Option.map_eq_some'] at h ⊢
          obtain ⟨y, hy, hx⟩ := h
          exact ⟨y, ihm.2.2.1 res y hy, hx⟩
      | _ => cases l <;> exact h
    · intro ab lfs rfs x h
      cases rfs with
      | nil => exact h
      | cons p rest =>
        obtain ⟨k, rv⟩ := p
        simp only [mergeFieldsListF, Option.bind_eq_bind, Option.bind_eq_some] at h ⊢
        obtain ⟨y, hy, hz⟩ := h
        exact ⟨y, ihm.2.2.2.1 ab _ rv y hy, ihm.2.2.2.2 ab _ rest x hz⟩

mutual

theorem deepCopyF_exists : ∀ v, ∃ n, deepCopyF n v = some (deepCopy v)
  | .vNull => ⟨1, rfl⟩
  | .vUndef => ⟨1, rfl⟩
  | .vStr _ => ⟨1, rfl⟩
  | .vNum _ => ⟨1, rfl⟩
  | .vBool _ => ⟨1, rfl⟩
  | .arr es => by
    obtain ⟨n, hn⟩ := copyListF_exists es
    exact ⟨n + 1, by simp [deepCopyF, deepCopy, hn]⟩
  | .obj fs => by
    obtain ⟨n, hn⟩ := copyFieldsF_exists fs
    exact ⟨n + 1, by simp [deepCopyF, deepCopy, hn]⟩

theorem copyFieldsF_exists : ∀ fs, ∃ n, copyFieldsF n fs = some (copyFields fs)
  | [] => ⟨1, rfl⟩
  | (k, v) :: rest => by
    obtain ⟨n1, h1⟩ := deepCopyF_exists v
    obtain ⟨n2, h2⟩ := copyFieldsF_exists rest
    refine ⟨max n1 n2 + 1, ?_⟩
    have h1b := (engineF_mono n1 (max n1 n2) (by omega)).1 v _ h1
    have h2b := (engineF_mono n2 (max n1 n2) (by omega)).2.1 rest _ h2
    simp [copyFieldsF, copyFields, h1b, h2b]

theorem copyListF_exists : ∀ es, ∃ n, copyListF n es = some (copyList es)
  | [] => ⟨1, rfl⟩
  | v :: rest => by
    obtain ⟨n1, h1⟩ := deepCopyF_exists v
    obtain ⟨n2, h2⟩ := copyListF_exists rest
    refine ⟨max n1 n2 + 1, ?_⟩
    have h1b := (engineF_mono n1 (max n1 n2) (by omega)).1 v _ h1
    have h2b := (engineF_mono n2 (max n1 n2) (by omega)).2.2.1 rest _ h2
    simp [copyListF, copyList, h1b, h2b]

end

mutual

theorem mergeTwoF_exists (ab : ArrayBehaviour) :
    ∀ l r, ∃ n, mergeTwoF n ab l r = some (mergeTwo ab l r)
  | l, .obj rfs => by
    cases l with
    | obj lfs =>
      obtain ⟨n, hn⟩ := mergeFieldsListF_exists ab lfs rfs
      exact ⟨n + 1, by simp [mergeTwoF, mergeTwo, hn]⟩
    | _ =>
      obtain ⟨n, hn⟩ := copyFieldsF_exists rfs
      exact ⟨n + 1, by simp [mergeTwoF, mergeTwo, hn]⟩
  | l, .arr res => by
    cases l with
    | arr les =>
      obtain ⟨n1, h1⟩ := copyListF_exists les
      obtain ⟨n2, h2⟩ := copyListF_exists res
      refine ⟨max n1 n2 + 1, ?_⟩
      have h1b := (engineF_mono n1 (max n1 n2) (by omega)).2.2.1 les _ h1
      have h2b := (engineF_mono n2 (max n1 n2) (by omega)).2.2.1 res _ h2
      by_cases hab : ab = ArrayBehaviour.merge <;>
        simp [mergeTwoF, mergeTwo, hab, h1b, h2b]
    | _ =>
      obtain ⟨n, hn⟩ := copyListF_exists res
      exact ⟨n + 1, by simp [mergeTwoF, mergeTwo, hn]⟩
  | l, .vNull => ⟨1, by cases l <;> rfl⟩
  | l, .vUndef => ⟨1, by cases l <;> rfl⟩
  | l, .vStr _ => ⟨1, by cases l <;> rfl⟩
  | l, .vNum _ => ⟨1, by cases l <;> rfl⟩
  | l, .vBool _ => ⟨1, by cases l <;> rfl⟩

theorem mergeFieldsListF_exists (ab : ArrayBehaviour) :
    ∀ lfs rfs, ∃ n, mergeFieldsListF n ab lfs rfs = some (mergeFieldsList ab lfs rfs)
  | _, [] => ⟨1, rfl⟩
  | lfs, (k, rv) :: rest => by
    obtain ⟨n1, h1⟩ := mergeTwoF_exists ab ((lookupKey lfs k).getD .vUndef) rv
    obtain ⟨n2, h2⟩ :=
      mergeFieldsListF_exists ab (setKey lfs k (mergeTwo ab ((lookupKey lfs k).getD .vUndef) rv))
        rest
    refine ⟨max n1 n2 + 1, ?_⟩
    have h1b := (engineF_mono n1 (max n1 n2) (by omega)).2.2.2.1 ab _ rv _ h1
    have h2b := (engineF_mono n2 (max n1 n2) (by omega)).2.2.2.2 ab _ rest _ h2
    simp [mergeFieldsListF, mergeFieldsList, h1b, h2b]

end

theorem foldMergeF_mono (ab : ArrayBehaviour) : ∀ (objects : List Value) (n m : Nat)
    (acc x : Value), n ≤ m →
    foldMergeF n ab acc objects = some x → foldMergeF m ab acc objects = some x
  | [], _, _, _, _, _, h => h
  | r :: rest, n, m, acc, x, hnm, h => by
    simp only [foldMergeF, Option.bind_eq_bind, Option.bind_eq_some] at h ⊢
    obtain ⟨y, hy, hz⟩ := h
    exact ⟨y, (engineF_mono n m hnm).2.2.2.1 ab acc r y hy,
      foldMergeF_mono ab rest n m y x hnm hz⟩

theorem foldMergeF_exists (ab : ArrayBehaviour) : ∀ (objects : List Value) (acc : Value),
    ∃ n, foldMergeF n ab acc objects = some (objects.foldl (mergeTwo ab) acc)
  | [], _ => ⟨0, rfl⟩
  | r :: rest, acc => by
    obtain ⟨n1, h1⟩ := mergeTwoF_exists ab acc r
    obtain ⟨n2, h2⟩ := foldMergeF_exists ab rest (mergeTwo ab acc r)
    refine ⟨max n1 n2, ?_⟩
    have h1b := (engineF_mono n1 (max n1 n2) (le_max_left n1 n2)).2.2.2.1 ab acc r _ h1
    have h2b := foldMergeF_mono ab rest n2 (max n1 n2) _ _ (le_max_right n1 n2) h2
    simp [foldMergeF, List.foldl_cons, h1b, h2b]

theorem pruneFieldsF_mono : ∀ (n m : Nat) (ignN ignU : Bool) (fs : List (String × Value))
    (x : List (String × Value)), n ≤ m →
    pruneFieldsF n ignN ignU fs = some x → pruneFieldsF m ignN ignU fs = some x := by
  intro n
  induction n with
  | zero => intro m ignN ignU fs x _ h; simp [pruneFieldsF] at h
  | succ n ih =>
    intro m ignN ignU fs x hm h
    obtain ⟨m', rfl⟩ : ∃ m', m = m' + 1 := ⟨m - 1, by omega⟩
    have hm' : n ≤ m' := by omega
    cases fs with
    | nil => exact h
    | cons p rest =>
      obtain ⟨k, v⟩ := p
      cases v with
      | obj fs2 =>
        simp only [pruneFieldsF, Option.bind_eq_bind, Option.bind_eq_some] at h ⊢
        obtain ⟨y, hy, z, hz, hx⟩ := h
        exact ⟨y, ih m' ignN ignU fs2 y hm' hy, z, ih m' ignN ignU rest z hm' hz, hx⟩
      | vNull =>
        simp only [pruneFieldsF, Option.map_eq_some'] at h ⊢
        obtain ⟨y, hy, hx⟩ := h
        exact ⟨y, ih m' ignN ignU rest y hm' hy, hx⟩
      | vUndef =>
        cases hu : ignU with
        | true =>
          simp only [pruneFieldsF, hu, if_true] at h ⊢
          exact ih m' ignN true rest x hm' h
        | false =>
          simp only [pruneFieldsF, hu, Bool.false_eq_true, if_false, Option.map_eq_some']
            at h ⊢
          obtain ⟨y, hy, hx⟩ := h
          exact ⟨y, ih m' ignN false rest y hm' hy, hx⟩
      | vStr s =>
        simp only [pruneFieldsF, Option.map_eq_some'] at h ⊢
        obtain ⟨y, hy, hx⟩ := h
        exact ⟨y, ih m' ignN ignU rest y hm' hy, hx⟩
      | vNum q =>
        simp only [pruneFieldsF, Option.map_eq_some'] at h ⊢
        obtain ⟨y, hy, hx⟩ := h
        exact ⟨y, ih m' ignN ignU rest y hm' hy, hx⟩
      | vBool b =>
        simp only [pruneFieldsF, Option.map_eq_some'] at h ⊢
        obtain ⟨y, hy, hx⟩ := h
        exact ⟨y, ih m' ignN ignU rest y hm' hy, hx⟩
      | arr es =>
        simp only [pruneFieldsF, Option.map_eq_some'] at h ⊢
        obtain ⟨y, hy, hx⟩ := h
        exact ⟨y, ih m' ignN ignU rest y hm' hy, hx⟩

theorem pruneValueF_mono (n m : Nat) (ignN ignU : Bool) (v x : Value) (hm : n ≤ m)
    (h : pruneValueF n ignN ignU v = some x) : pruneValueF m ignN ignU v = some x := by
  cases v with
  | obj fs =>
    simp only [pruneValueF, Option.map_eq_some'] at h ⊢
    obtain ⟨y, hy, hx⟩ := h
    exact ⟨y, pruneFieldsF_mono n m ignN ignU fs y hm hy, hx⟩
  | _ => exact h

theorem pruneFieldsF_exists : ∀ (ignN ignU : Bool) (fs : List (String × Value)),
    ∃ n, pruneFieldsF n ignN ignU fs = some (pruneFields ignN ignU fs)
  | _, _, [] => ⟨1, by simp [pruneFieldsF, pruneFields]⟩
  | ignN, ignU, (k, .obj fs2) :: rest => by
    obtain ⟨n1, h1⟩ := pruneFieldsF_exists ignN ignU fs2
    obtain ⟨n2, h2⟩ := pruneFieldsF_exists ignN ignU rest
    refine ⟨max n1 n2 + 1, ?_⟩
    have h1b := pruneFieldsF_mono n1 (max n1 n2) ignN ignU fs2 _ (le_max_left n1 n2) h1
    have h2b := pruneFieldsF_mono n2 (max n1 n2) ignN ignU rest _ (le_max_right n1 n2) h2
    simp [pruneFieldsF, pruneFields, h1b, h2b]
  | ignN, ignU, (k, .vNull) :: rest => by
    obtain ⟨n2, h2⟩ := pruneFieldsF_exists ignN ignU rest
    exact ⟨n2 + 1, by simp [pruneFieldsF, pruneFields, h2]⟩
  | ignN, ignU, (k, .vUndef) :: rest => by
    obtain ⟨n2, h2⟩ := pruneFieldsF_exists ignN ignU rest
    refine ⟨n2 + 1, ?_⟩
    cases hu : ignU
    · rw [hu] at h2
      simp [pruneFieldsF, pruneFields, h2]
    · rw [hu] at h2
      simp [pruneFieldsF, pruneFields, h2]
  | ignN, ignU, (k, .vStr s) :: rest => by
    obtain ⟨n2, h2⟩ := pruneFieldsF_exists ignN ignU rest
    exact ⟨n2 + 1, by simp [pruneFieldsF, pruneFields, h2]⟩
  | ignN, ignU, (k, .vNum q) :: rest => by
    obtain ⟨n2, h2⟩ := pruneFieldsF_exists ignN ignU rest
    exact ⟨n2 + 1, by simp [pruneFieldsF, pruneFields, h2]⟩
  | ignN, ignU, (k, .vBool b) :: rest => by
    obtain ⟨n2, h2⟩ := pruneFieldsF_exists ignN ignU rest
    exact ⟨n2 + 1, by simp [pruneFieldsF, pruneFields, h2]⟩
  | ignN, ignU, (k, .arr es) :: rest => by
    obtain ⟨n2, h2⟩ := pruneFieldsF_exists ignN ignU rest
    exact ⟨n2 + 1, by simp [pruneFieldsF, pruneFields, h2]⟩

/-- Pruning of a whole value: the total counterpart of `pruneValueF` (only the
mapping case does any work, matching `removeUndesirableProperties` whose
`for..in` loop has nothing to enumerate on non-mappings). -/
def pruneValue (ignN ignU : Bool) : Value → Value
  | .obj fs => .obj (pruneFields ignN ignU fs)
  | v => v

theorem pruneValueF_exists (ignN ignU : Bool) (v : Value) :
    ∃ n, pruneValueF n ignN ignU v = some (pruneValue ignN ignU v) := by
  cases v with
  | obj fs =>
    obtain ⟨n, hn⟩ := pruneFieldsF_exists ignN ignU fs
    exact ⟨n, by simp [pruneValueF, pruneValue, hn]⟩
  | _ => exact ⟨0, rfl⟩

theorem extendPushedF_mono : ∀ (objects : List Value) (n m : Nat) (ignN ignU first : Bool)
    (x : List Value), n ≤ m →
    extendPushedF n ignN ignU first objects = some x →
    extendPushedF m ignN ignU first objects = some x
  | [], _, _, _, _, _, _, _, h => h
  | o :: rest, n, m, ignN, ignU, first, x, hnm, h => by
    simp only [extendPushedF, Option.bind_eq_some] at h ⊢
    obtain ⟨c, hc, v, hv, z, hz, hx⟩ := h
    refine ⟨c, foldMergeF_mono .replace [o] n m _ c hnm hc, v, ?_,
      z, extendPushedF_mono rest n m ignN ignU false z hnm hz, hx⟩
    by_cases hcond : (if first = true then false else ignN) = false ∧ ignU = false
    · rw [if_pos hcond] at hv ⊢
      exact hv
    · rw [if_neg hcond] at hv ⊢
      simp only [Option.bind_eq_some] at hv ⊢
      obtain ⟨w, hw, hv2⟩ := hv
      exact ⟨w, pruneValueF_mono n m _ ignU c w hnm hw, hv2⟩

theorem extendPushedF_exists : ∀ (ignN ignU first : Bool) (objects : List Value),
    ∃ n, extendPushedF n ignN ignU first objects
      = some (extendPushed ignN ignU first objects)
  | _, _, _, [] => ⟨0, rfl⟩
  | ignN, ignU, first, o :: rest => by
    obtain ⟨n1, h1⟩ := foldMergeF_exists .replace [o] (.obj [])
    obtain ⟨n2, h2⟩ := pruneValueF_exists (if first then false else ignN) ignU (cloneJS o)
    obtain ⟨n3, h3⟩ := extendPushedF_exists ignN ignU false rest
    have hn1 : n1 ≤ max n1 (max n2 n3) := le_max_left _ _
    have hn2 : n2 ≤ max n1 (max n2 n3) := le_trans (le_max_left _ _) (le_max_right _ _)
    have hn3 : n3 ≤ max n1 (max n2 n3) := le_trans (le_max_right _ _) (le_max_right _ _)
    refine ⟨max n1 (max n2 n3), ?_⟩
    have h1b := foldMergeF_mono .replace [o] n1 _ _ _ hn1 h1
    have h2b := pruneValueF_mono n2 _ _ ignU _ _ hn2 h2
    have h3b := extendPushedF_mono rest n3 _ ignN ignU false _ hn3 h3
    simp only [extendPushedF, extendPushed, cloneJSF]
    rw [h1b]
    simp only [Option.some_bind]
    by_cases hcond : (if first = true then false else ignN) = false ∧ ignU = false
    · rw [if_pos hcond]
      simp only [Option.some_bind]
      rw [h3b]
      simp only [Option.some_bind, Option.some.injEq, List.cons.injEq]
      refine ⟨?_, trivial⟩
      show List.foldl (mergeTwo .replace) (.obj []) [o]
        = removeUndesirablePropertiesRet (if first = true then false else ignN) ignU (cloneJS o)
      simp only [removeUndesirablePropertiesRet]
      rw [if_pos hcond]
      rfl
    · rw [if_neg hcond]
      have h2c : pruneValueF (max n1 (max n2 n3)) (if first = true then false else ignN) ignU
          (List.foldl (mergeTwo .replace) (.obj []) [o])
          = some (pruneValue (if first = true then false else ignN) ignU (cloneJS o)) := h2b
      rw [h2c]
      simp only [Option.some_bind]
      rw [h3b]
      simp only [Option.some_bind, Option.some.injEq, List.cons.injEq]
      refine ⟨?_, trivial⟩
      show Value.vUndef
        = removeUndesirablePropertiesRet (if first = true then false else ignN) ignU (cloneJS o)
      simp only [removeUndesirablePropertiesRet]
      rw [if_neg hcond]

theorem extendJSF_exists (objects : List Value) (opts : ExtendOptions) :
    ∃ n, extendJSF n objects opts = some (extendJS objects opts) := by
  obtain ⟨n1, h1⟩ := extendPushedF_exists (opts.ignoreNull.getD true)
    (opts.ignoreUndefined.getD true) true objects
  obtain ⟨n2, h2⟩ := foldMergeF_exists (opts.arrayBehaviour.getD .replace)
    (extendPushed (opts.ignoreNull.getD true) (opts.ignoreUndefined.getD true) true objects)
    (.obj [])
  refine ⟨max n1 n2, ?_⟩
  have h1b := extendPushedF_mono objects n1 (max n1 n2) _ _ true _ (le_max_left n1 n2) h1
  have h2b := foldMergeF_mono _ _ n2 (max n1 n2) _ _ (le_max_right n1 n2) h2
  simp only [extendJSF]
  rw [h1b]
  simp only [Option.some_bind]
  rw [h2b]
  rfl

/-- C9: every public operation, run as the (a priori possibly divergent)
recursive procedure mirrored by the fuelled functions, terminates with the
value of the total model on every input of the acyclic value domain: some
finite fuel suffices, and the result is `some` value — no error outcome
exists. -/
theorem c9_operations_total :
    (∀ objects opts, ∃ n, extendJSF n objects opts = some (extendJS objects opts))
  ∧ (∀ objects, ∃ n, mergeJSF n objects = some (mergeJS objects))
  ∧ (∀ target objects, ∃ n,
      mergeIntoJSF n target objects = some (mergeIntoPure target objects))
  ∧ (∀ object, ∃ n, cloneJSF n object = some (cloneJS object))
  ∧ (∀ d a r, ∃ n, defaultsJSF n d a r = some (defaultsJS d a r)) := by
  refine ⟨extendJSF_exists, ?_, ?_, ?_, ?_⟩
  · intro objects
    exact foldMergeF_exists .replace objects (.obj [])
  · intro target objects
    exact foldMergeF_exists .replace objects target
  · intro object
    exact foldMergeF_exists .replace [object] (.obj [])
  · intro d a r
    exact foldMergeF_exists .replace [d, a, r] (.obj [])

/-! Heap model.  Reference identity, mutation and aliasing (claims C4, C8 and
the no-mutation half of C5) are properties of the JavaScript heap, so the
engine is modelled a second time over an explicit store: mappings and
sequences live at addresses, mutation is a store update, and reference
identity is address equality.  The operations mirror the same spec-modelled
algorithm as the pure engine above. -/

/-- Primitive (non-reference) JavaScript values. -/
inductive PrimVal where
  | pNull : PrimVal
  | pUndef : PrimVal
  | pStr (s : String) : PrimVal
  | pNum (n : Int) : PrimVal
  | pBool (b : Bool) : PrimVal
deriving DecidableEq

/-- A heap value: a primitive, or a reference to a heap node. -/
inductive HVal where
  | prim (p : PrimVal) : HVal
  | ref (a : Nat) : HVal
deriving DecidableEq

/-- A heap node: a mapping's field table or a sequence's element table. -/
inductive Node where
  | objN (fs : List (String × HVal)) : Node
  | arrN (es : List HVal) : Node
deriving DecidableEq

/-- The store: an association list from addresses to nodes (an earlier entry
shadows later ones for the same address), plus the next fresh address. -/
structure Heap where
  store : List (Nat × Node)
  next : Nat
deriving DecidableEq

/-- Store lookup (first match wins). -/
def lookupStore : List (Nat × Node) → Nat → Option Node
  | [], _ => none
  | (b, nd) :: rest, a => if b = a then some nd else lookupStore rest a

/-- Node at an address. -/
def lookupN (h : Heap) (a : Nat) : Option Node :=
  lookupStore h.store a

/-- Allocate a fresh node. -/
def alloc (h : Heap) (nd : Node) : Nat × Heap :=
  (h.next, ⟨(h.next, nd) :: h.store, h.next + 1⟩)

/-- Overwrite the node at an address (mutation; the new entry shadows). -/
def setN (h : Heap) (a : Nat) (nd : Node) : Heap :=
  ⟨(a, nd) :: h.store, h.next⟩

/-- Natesses referenced directly by a heap value. -/
def hvalAddrs : HVal → List Nat
  | .prim _ => []
  | .ref a => [a]

/-- The heap values held by a node. -/
def nodeVals : Node → List HVal
  | .objN fs => fs.map Prod.snd
  | .arrN es => es

/-- Addresses referenced directly by a node. -/
def nodeAddrs (nd : Node) : List Nat :=
  (nodeVals nd).flatMap hvalAddrs

/-- Well-formed heap: every stored entry sits below `next` and references only
addresses below `next`. -/
def heapWf (h : Heap) : Prop :=
  ∀ p ∈ h.store, p.1 < h.next ∧ ∀ c ∈ nodeAddrs p.2, c < h.next

/-- A heap value whose direct references lie below a bound. -/
def valBelow (b : Nat) (v : HVal) : Prop :=
  ∀ a ∈ hvalAddrs v, a < b

/-- Reachability of an address from a heap value. -/
inductive Reach (h : Heap) : HVal → Nat → Prop where
  | here (a : Nat) : Reach h (.ref a) a
  | step (a : Nat) (nd : Node) (v : HVal) (b : Nat) :
      lookupN h a = some nd → v ∈ nodeVals nd → Reach h v b → Reach h (.ref a) b

/-- First value bound to a key in a heap field table. -/
def lookupKeyH : List (String × HVal) → String → Option HVal
  | [], _ => none
  | (k', v') :: rest, k => if k' = k then some v' else lookupKeyH rest k

/-- Property assignment on a heap field table. -/
def setKeyH : List (String × HVal) → String → HVal → List (String × HVal)
  | [], k, v => [(k, v)]
  | (k', v') :: rest, k, v =>
    if k' = k then (k', v) :: rest else (k', v') :: setKeyH rest k v

/-- Property deletion on a heap field table. -/
def delKeyH : List (String × HVal) → String → List (String × HVal)
  | [], _ => []
  | (k', v') :: rest, k => if k' = k then rest else (k', v') :: delKeyH rest k

/-- Primitive to pure value. -/
def primToValue : PrimVal → Value
  | .pNull => .vNull
  | .pUndef => .vUndef
  | .pStr s => .vStr s
  | .pNum n => .vNum n
  | .pBool b => .vBool b

mutual

/-- Read a heap value back as a pure `Value` (fuel bounds the depth; `none` on
cycles or dangling references). -/
def toValH : Nat → Heap → HVal → Option Value
  | 0, _, _ => none
  | _ + 1, _, .prim p => some (primToValue p)
  | m + 1, h, .ref a =>
    match lookupN h a with
    | some (.objN fs) => (toFieldsH m h fs).map .obj
    | some (.arrN es) => (toListH m h es).map .arr
    | none => none

/-- Read a field table back. -/
def toFieldsH : Nat → Heap → List (String × HVal) → Option (List (String × Value))
  | _, _, [] => some []
  | m, h, (k, v) :: rest =>
    (toValH m h v).bind fun pv =>
      (toFieldsH m h rest).bind fun prest => some ((k, pv) :: prest)

/-- Read an element table back. -/
def toListH : Nat → Heap → List HVal → Option (List Value)
  | _, _, [] => some []
  | m, h, v :: rest =>
    (toValH m h v).bind fun pv =>
      (toListH m h rest).bind fun prest => some (pv :: prest)

end

mutual

/-- Modelled from the spec (§4.2 step 6, heap form): deep copy of a heap
value, allocating fresh nodes for every mapping/sequence reached. -/
def cloneValH : Nat → Heap → HVal → Option (HVal × Heap)
  | 0, _, _ => none
  | _ + 1, h, .prim p => some (.prim p, h)
  | n + 1, h, .ref a =>
    match lookupN h a with
    | some (.objN fs) =>
      (cloneFieldsH n h fs).bind fun p =>
        some (.ref (alloc p.2 (.objN p.1)).1, (alloc p.2 (.objN p.1)).2)
    | some (.arrN es) =>
      (cloneListH n h es).bind fun p =>
        some (.ref (alloc p.2 (.arrN p.1)).1, (alloc p.2 (.arrN p.1)).2)
    | none => none

/-- Deep copy of a field table. -/
def cloneFieldsH : Nat → Heap → List (String × HVal) →
    Option (List (String × HVal) × Heap)
  | 0, _, _ => none
  | _ + 1, h, [] => some ([], h)
  | n + 1, h, (k, v) :: rest =>
    (cloneValH n h v).bind fun p =>
      (cloneFieldsH n p.2 rest).bind fun q => some ((k, p.1) :: q.1, q.2)

/-- Deep copy of an element table. -/
def cloneListH : Nat → Heap → List HVal → Option (List HVal × Heap)
  | 0, _, _ => none
  | _ + 1, h, [] => some ([], h)
  | n + 1, h, v :: rest =>
    (cloneValH n h v).bind fun p =>
      (cloneListH n p.2 rest).bind fun q => some (p.1 :: q.1, q.2)

end

mutual

/-- Modelled from the spec (§4.2 steps 2-6, heap form): the two-value merge
step building a FRESH value — the heap counterpart of `mergeTwo`.  For two
mappings, the left-hand fields are deep-copied (values present in only one
side are "deep-copied, never aliased") and the right-hand fields are then
folded in per key; sequences concatenate under `merge` (fresh node of
deep-copied elements) and deep-copy over the left otherwise; primitives
replace. -/
def mergePairH : Nat → ArrayBehaviour → Heap → HVal → HVal → Option (HVal × Heap)
  | 0, _, _, _, _ => none
  | n + 1, ab, h, l, r =>
    match r with
    | .prim p => some (.prim p, h)
    | .ref ra =>
      match lookupN h ra with
      | some (.objN rfs) =>
        match l with
        | .ref la =>
          match lookupN h la with
          | some (.objN lfs) =>
            (cloneFieldsH n h lfs).bind fun p =>
              (mergeFieldsH n ab p.2 p.1 rfs).bind fun q =>
                some (.ref (alloc q.2 (.objN q.1)).1, (alloc q.2 (.objN q.1)).2)
          | _ => cloneValH n h r
        | _ => cloneValH n h r
      | some (.arrN res) =>
        match l with
        | .ref la =>
          match lookupN h la with
          | some (.arrN les) =>
            if ab = .merge then
              (cloneListH n h les).bind fun p =>
                (cloneListH n p.2 res).bind fun q =>
                  some (.ref (alloc q.2 (.arrN (p.1 ++ q.1))).1,
                    (alloc q.2 (.arrN (p.1 ++ q.1))).2)
            else cloneValH n h r
          | _ => cloneValH n h r
        | _ => cloneValH n h r
      | none => none

/-- Per-key fold of right-hand fields into an accumulated (fresh) field table;
the heap counterpart of `mergeFieldsList`. -/
def mergeFieldsH : Nat → ArrayBehaviour → Heap → List (String × HVal) →
    List (String × HVal) → Option (List (String × HVal) × Heap)
  | 0, _, _, _, _ => none
  | _ + 1, _, h, lfs, [] => some (lfs, h)
  | n + 1, ab, h, lfs, (k, rv) :: rest =>
    (mergePairH n ab h ((lookupKeyH lfs k).getD (.prim .pUndef)) rv).bind fun p =>
      mergeFieldsH n ab p.2 (setKeyH lfs k p.1) rest

end

/-- Modelled from the spec (§4.2 heap form, mutating): merge the fields of a
source mapping into the mapping node at the target address, assigning the
per-key merged value (built fresh by `mergePairH`) into the target node —
"the target's top-level identity is preserved but its nested structures are
still rebuilt on write". -/
def mergeObjIntoH : Nat → ArrayBehaviour → Heap → Nat → List (String × HVal) → Option Heap
  | 0, _, _, _, _ => none
  | _ + 1, _, h, _, [] => some h
  | n + 1, ab, h, t, (k, rv) :: rest =>
    match lookupN h t with
    | some (.objN tfs) =>
      (mergePairH n ab h ((lookupKeyH tfs k).getD (.prim .pUndef)) rv).bind fun p =>
        mergeObjIntoH n ab (setN p.2 t (.objN (setKeyH tfs k p.1))) t rest
    | _ => none

/-- Modelled from the spec (§4.2 heap form): one fold step of the multi-value
fold.  A source mapping merges in place into a mapping accumulator (the
accumulator keeps its identity); otherwise the pairwise step replaces the
accumulator by a fresh deep copy (or a fresh concatenation for two sequences
under `merge`), and a primitive source replaces the accumulator outright. -/
def mergeTopH (n : Nat) (ab : ArrayBehaviour) (h : Heap) (acc src : HVal) :
    Option (HVal × Heap) :=
  match src with
  | .prim p => some (.prim p, h)
  | .ref sa =>
    match lookupN h sa with
    | some (.objN sfs) =>
      match acc with
      | .ref ta =>
        match lookupN h ta with
        | some (.objN _) => (mergeObjIntoH n ab h ta sfs).map (fun h2 => (acc, h2))
        | _ => cloneValH n h src
      | _ => cloneValH n h src
    | some (.arrN ses) =>
      match acc with
      | .ref ta =>
        match lookupN h ta with
        | some (.arrN tes) =>
          if ab = .merge then
            (cloneListH n h tes).bind fun p =>
              (cloneListH n p.2 ses).bind fun q =>
                some (.ref (alloc q.2 (.arrN (p.1 ++ q.1))).1,
                  (alloc q.2 (.arrN (p.1 ++ q.1))).2)
          else cloneValH n h src
        | _ => cloneValH n h src
      | _ => cloneValH n h src
    | none => none

/-- The multi-value fold over a list of sources. -/
def foldTopH (n : Nat) (ab : ArrayBehaviour) : Heap → HVal → List HVal →
    Option (HVal × Heap)
  | h, acc, [] => some (acc, h)
  | h, acc, src :: rest =>
    (mergeTopH n ab h acc src).bind fun p => foldTopH n ab p.2 p.1 rest

/-- Modelled from the spec: `objectAssignDeep.noMutate` in heap form — the
fold seeded at a freshly allocated empty mapping. -/
def noMutateH (n : Nat) (h : Heap) (objects : List HVal) : Option (HVal × Heap) :=
  foldTopH n .replace (alloc h (.objN [])).2 (.ref (alloc h (.objN [])).1) objects

/-- Translated from `merge` (src/objectExtender.js lines 302-304), heap form. -/
def mergeHeap (n : Nat) (h : Heap) (objects : List HVal) : Option (HVal × Heap) :=
  noMutateH n h objects

/-- Translated from `clone` (src/objectExtender.js lines 316-318), heap form. -/
def cloneHeap (n : Nat) (h : Heap) (object : HVal) : Option (HVal × Heap) :=
  noMutateH n h [object]

/-- Translated from `defaults` (src/objectExtender.js lines 355-357), heap
form. -/
def defaultsHeap (n : Nat) (h : Heap) (d a r : HVal) : Option (HVal × Heap) :=
  noMutateH n h [d, a, r]

/-- Translated from `mergeInto` (src/objectExtender.js lines 309-311), heap
form: the fold seeded at the target itself. -/
def mergeIntoHeap (n : Nat) (h : Heap) (target : HVal) (objects : List HVal) :
    Option (HVal × Heap) :=
  foldTopH n .replace h target objects

/-- Translated from the export table (src/objectExtender.js lines 362-370),
heap form: `mixin` is the very same function as `mergeInto`. -/
def mixinHeap : Nat → Heap → HVal → List HVal → Option (HVal × Heap) :=
  mergeIntoHeap

/-- Translated from the export table (src/objectExtender.js lines 362-370),
heap form: `copy` is the very same function as `clone`. -/
def copyHeap : Nat → Heap → HVal → Option (HVal × Heap) :=
  cloneHeap

mutual

/-- Translated from `removeUndesirableProperties` (src/objectExtender.js lines
248-271), heap form: the pruning loop, mutating the object graph in place.
`pruneObjH` runs the `for..in` loop over the node at one address;
`pruneKeysH` walks a snapshot of an object node's keys, re-reading the node at
each step; `pruneIdxH` walks the index snapshot of an array node (`for..in`
over an array visits its indices).  Per the source: a value with `typeof ===
'object'` that is not an array is descended into — and `typeof null ===
'object'`, so a null value takes the (no-op) descend branch and is never
deleted; an array value is neither descended into nor deleted; an undefined
value is deleted when `ignoreUndefined` is set (deleting an array slot leaves
a hole that still reads back as undefined, which the model keeps as the same
stored primitive, a no-op); every other value is kept, the deletion test
`(typeof === 'undefined' && ignoreUndefined) || (=== null && ignoreNull)`
being false for it. -/
def pruneObjH : Nat → Bool → Bool → Heap → Nat → Option Heap
  | 0, _, _, _, _ => none
  | n + 1, ignN, ignU, h, a =>
    match lookupN h a with
    | some (.objN fs) => pruneKeysH n ignN ignU h a (fs.map Prod.fst)
    | some (.arrN es) => pruneIdxH n ignN ignU h a (List.range es.length)
    | none => some h

/-- One `for..in` pass over an object node's key snapshot (see `pruneObjH`). -/
def pruneKeysH : Nat → Bool → Bool → Heap → Nat → List String → Option Heap
  | 0, _, _, _, _, _ => none
  | _ + 1, _, _, h, _, [] => some h
  | n + 1, ignN, ignU, h, a, k :: rest =>
    match lookupN h a with
    | some (.objN fs) =>
      match lookupKeyH fs k with
      | some (.ref b) =>
        match lookupN h b with
        | some (.objN _) =>
          (pruneObjH n ignN ignU h b).bind fun h1 => pruneKeysH n ignN ignU h1 a rest
        | _ => pruneKeysH n ignN ignU h a rest
      | some (.prim .pUndef) =>
        if ignU then pruneKeysH n ignN ignU (setN h a (.objN (delKeyH fs k))) a rest
        else pruneKeysH n ignN ignU h a rest
      | some (.prim _) => pruneKeysH n ignN ignU h a rest
      | none => pruneKeysH n ignN ignU h a rest
    | _ => some h

/-- One `for..in` pass over an array node's index snapshot (see `pruneObjH`). -/
def pruneIdxH : Nat → Bool → Bool → Heap → Nat → List Nat → Option Heap
  | 0, _, _, _, _, _ => none
  | _ + 1, _, _, h, _, [] => some h
  | n + 1, ignN, ignU, h, a, i :: rest =>
    match lookupN h a with
    | some (.arrN es) =>
      match es[i]? with
      | some (.ref b) =>
        match lookupN h b with
        | some (.objN _) =>
          (pruneObjH n ignN ignU h b).bind fun h1 => pruneIdxH n ignN ignU h1 a rest
        | _ => pruneIdxH n ignN ignU h a rest
      | _ => pruneIdxH n ignN ignU h a rest
    | _ => some h

end

/-- Translated from `removeUndesirableProperties` (src/objectExtender.js lines
248-271), heap form, return value included: with both flags clear the function
returns its argument untouched on the early `return object`; otherwise it runs
the pruning loop over the argument (a primitive argument iterates nothing) and
falls off the end of the function body, returning JavaScript `undefined`. -/
def removeUndesirablePropsH (n : Nat) (ignN ignU : Bool) (h : Heap) (v : HVal) :
    Option (HVal × Heap) :=
  if ignN = false ∧ ignU = false then some (v, h)
  else
    match v with
    | .prim _ => some (.prim .pUndef, h)
    | .ref a => (pruneObjH n ignN ignU h a).map fun h1 => (.prim .pUndef, h1)

/-- Translated from the loop of `extend` (src/objectExtender.js lines 287-292),
heap form: clone each input, run `removeUndesirableProperties` on the clone
(index 0 gets `ignoreNull: false`), and push its RETURN VALUE. -/
def extendPushedHeap : Nat → Bool → Bool → Bool → Heap → List HVal →
    Option (List HVal × Heap)
  | 0, _, _, _, _, _ => none
  | _ + 1, _, _, _, h, [] => some ([], h)
  | n + 1, ignN, ignU, first, h, o :: rest =>
    (cloneHeap n h o).bind fun p =>
      (removeUndesirablePropsH n (if first = true then false else ignN) ignU p.2 p.1).bind
        fun q =>
          (extendPushedHeap n ignN ignU false q.2 rest).bind fun r =>
            some (q.1 :: r.1, r.2)

/-- Translated from `extend` (src/objectExtender.js lines 276-297), heap form:
resolve the options against the defaults, allocate the fresh empty target,
build the pushed values, and fold them into the target with
`objectAssignDeep.withOptions`. -/
def extendHeap (n : Nat) (h : Heap) (objects : List HVal) (opts : ExtendOptions) :
    Option (HVal × Heap) :=
  let ignN := opts.ignoreNull.getD true
  let ignU := opts.ignoreUndefined.getD true
  let ab := opts.arrayBehaviour.getD .replace
  (extendPushedHeap n ignN ignU true (alloc h (.objN [])).2 objects).bind fun p =>
    foldTopH n ab p.2 (.ref (alloc h (.objN [])).1) p.1

/-! Basic store lemmas. -/

theorem lookupStore_mem : ∀ (l : List (Nat × Node)) (a : Nat) (nd : Node),
    lookupStore l a = some nd → (a, nd) ∈ l
  | [], _, _, h => by simp [lookupStore] at h
  | (b, nd') :: rest, a, nd, h => by
    by_cases hb : b = a
    · subst hb
      simp [lookupStore] at h
      simp [h]
    · simp [lookupStore, hb] at h
      simp [lookupStore_mem rest a nd h]

theorem lookupN_alloc_self (h : Heap) (nd : Node) :
    lookupN (alloc h nd).2 (alloc h nd).1 = some nd := by
  simp [lookupN, alloc, lookupStore]

theorem lookupN_alloc_ne (h : Heap) (nd : Node) (a : Nat) (ha : a ≠ h.next) :
    lookupN (alloc h nd).2 a = lookupN h a := by
  have hne : h.next ≠ a := fun he => ha he.symm
  simp [lookupN, alloc, lookupStore, hne]

theorem lookupN_setN_self (h : Heap) (t : Nat) (nd : Node) :
    lookupN (setN h t nd) t = some nd := by
  simp [lookupN, setN, lookupStore]

theorem lookupN_setN_ne (h : Heap) (t : Nat) (nd : Node) (a : Nat) (ha : a ≠ t) :
    lookupN (setN h t nd) a = lookupN h a := by
  have hne : t ≠ a := fun he => ha he.symm
  simp [lookupN, setN, lookupStore, hne]

theorem setN_next (h : Heap) (t : Nat) (nd : Node) : (setN h t nd).next = h.next := rfl

theorem alloc_next (h : Heap) (nd : Node) : (alloc h nd).2.next = h.next + 1 := rfl

theorem heapWf_lookup (h : Heap) (hwf : heapWf h) (a : Nat) (nd : Node)
    (hl : lookupN h a = some nd) : a < h.next ∧ ∀ c ∈ nodeAddrs nd, c < h.next :=
  hwf (a, nd) (lookupStore_mem h.store a nd hl)

theorem heapWf_alloc (h : Heap) (nd : Node) (hwf : heapWf h)
    (hnd : ∀ c ∈ nodeAddrs nd, c < h.next) : heapWf (alloc h nd).2 := by
  intro p hp
  simp only [alloc] at hp
  have hnext : (alloc h nd).2.next = h.next + 1 := rfl
  rw [hnext]
  rcases List.mem_cons.mp hp with hp | hp
  · subst hp
    refine ⟨?_, ?_⟩
    · show h.next < h.next + 1
      exact Nat.lt_succ_self _
    · intro c hc
      exact Nat.lt_succ_of_lt (hnd c hc)
  · obtain ⟨hp1, hp2⟩ := hwf p hp
    exact ⟨Nat.lt_succ_of_lt hp1, fun c hc => Nat.lt_succ_of_lt (hp2 c hc)⟩

theorem heapWf_setN (h : Heap) (t : Nat) (nd : Node) (hwf : heapWf h)
    (ht : t < h.next) (hnd : ∀ c ∈ nodeAddrs nd, c < h.next) : heapWf (setN h t nd) := by
  intro p hp
  simp [setN] at hp
  rcases hp with hp | hp
  · subst hp
    exact ⟨ht, hnd⟩
  · exact hwf p hp

theorem mem_nodeAddrs (nd : Node) (v : HVal) (a : Nat)
    (hv : v ∈ nodeVals nd) (ha : a ∈ hvalAddrs v) : a ∈ nodeAddrs nd := by
  simp [nodeAddrs, List.mem_flatMap]
  exact ⟨v, hv, ha⟩

/-- Agreement of store lookups on an address set. -/
def agreeOn (S : Nat → Prop) (h1 h2 : Heap) : Prop :=
  ∀ a, S a → lookupN h2 a = lookupN h1 a

/-- A set of addresses closed under the references of the nodes it contains
(relative to a heap). -/
def closedOn (S : Nat → Prop) (h : Heap) : Prop :=
  ∀ a, S a → ∀ nd, lookupN h a = some nd → ∀ c ∈ nodeAddrs nd, S c

theorem toValH_agree (S : Nat → Prop) (h1 h2 : Heap)
    (hag : agreeOn S h1 h2) (hcl : closedOn S h1) :
    ∀ m : Nat,
      (∀ v, (∀ a ∈ hvalAddrs v, S a) → toValH m h2 v = toValH m h1 v)
    ∧ (∀ fs, (∀ p ∈ fs, ∀ a ∈ hvalAddrs (Prod.snd p), S a) →
        toFieldsH m h2 fs = toFieldsH m h1 fs)
    ∧ (∀ es, (∀ v ∈ es, ∀ a ∈ hvalAddrs v, S a) → toListH m h2 es = toListH m h1 es) := by
  intro m
  induction m with
  | zero =>
    have hv : ∀ v, (∀ a ∈ hvalAddrs v, S a) → toValH 0 h2 v = toValH 0 h1 v := by
      intro v _
      simp [toValH]
    refine ⟨hv, ?_, ?_⟩
    · intro fs hfs
      induction fs with
      | nil => simp [toFieldsH]
      | cons p rest ihr =>
        obtain ⟨k, v⟩ := p
        simp only [toFieldsH]
        rw [hv v (hfs (k, v) (by simp)), ihr (fun q hq => hfs q (by simp [hq]))]
    · intro es hes
      induction es with
      | nil => simp [toListH]
      | cons v rest ihr =>
        simp only [toListH]
        rw [hv v (hes v (by simp)), ihr (fun w hw => hes w (by simp [hw]))]
  | succ m ih =>
    have hv : ∀ v, (∀ a ∈ hvalAddrs v, S a) → toValH (m + 1) h2 v = toValH (m + 1) h1 v := by
      intro v hroots
      cases v with
      | prim p => simp [toValH]
      | ref a =>
        have hSa : S a := hroots a (by simp [hvalAddrs])
        have hlook := hag a hSa
        simp only [toValH, hlook]
        cases hcase : lookupN h1 a with
        | none => rfl
        | some nd =>
          have hchild : ∀ c ∈ nodeAddrs nd, S c := hcl a hSa nd hcase
          cases nd with
          | objN fs =>
            have := ih.2.1 fs (fun p hp c hc =>
              hchild c (mem_nodeAddrs (.objN fs) p.2 c (by simp [nodeVals]; exact ⟨p.1, hp⟩) hc))
            simp [this]
          | arrN es =>
            have := ih.2.2 es (fun w hw c hc =>
              hchild c (mem_nodeAddrs (.arrN es) w c (by simp [nodeVals, hw]) hc))
            simp [this]
    refine ⟨hv, ?_, ?_⟩
    · intro fs hfs
      induction fs with
      | nil => simp [toFieldsH]
      | cons p rest ihr =>
        obtain ⟨k, v⟩ := p
        simp only [toFieldsH]
        rw [hv v (hfs (k, v) (by simp)), ihr (fun q hq => hfs q (by simp [hq]))]
    · intro es hes
      induction es with
      | nil => simp [toListH]
      | cons v rest ihr =>
        simp only [toListH]
        rw [hv v (hes v (by simp)), ihr (fun w hw => hes w (by simp [hw]))]

/-- Every node stored at or above a bound references only addresses at or
above that bound (the freshly built region never points back into the old
region). -/
def regionHi (b : Nat) (h : Heap) : Prop :=
  ∀ a, b ≤ a → ∀ nd, lookupN h a = some nd → ∀ c ∈ nodeAddrs nd, b ≤ c

theorem regionHi_of_wf (h : Heap) (hwf : heapWf h) : regionHi h.next h := by
  intro a ha nd hl c hc
  have := (heapWf_lookup h hwf a nd hl).1
  omega

theorem reach_below (h : Heap) (hwf : heapWf h) (v : HVal) (b : Nat)
    (hr : Reach h v b) : valBelow h.next v → b < h.next := by
  induction hr with
  | here a =>
    intro hv
    exact hv a (by simp [hvalAddrs])
  | step a nd w c hl hw _ ih =>
    intro _
    have hnd := (heapWf_lookup h hwf a nd hl).2
    exact ih (fun x hx => hnd x (mem_nodeAddrs nd w x hw hx))

theorem reach_high (h : Heap) (b : Nat) (hrh : regionHi b h) (v : HVal) (c : Nat)
    (hr : Reach h v c) : (∀ a ∈ hvalAddrs v, b ≤ a) → b ≤ c := by
  induction hr with
  | here a =>
    intro hv
    exact hv a (by simp [hvalAddrs])
  | step a nd w d hl hw _ ih =>
    intro hv
    have ha : b ≤ a := hv a (by simp [hvalAddrs])
    exact ih (fun x hx => hrh a ha nd hl x (mem_nodeAddrs nd w x hw hx))

theorem reach_agree_mp (S : Nat → Prop) (h1 h2 : Heap)
    (hag : agreeOn S h1 h2) (hcl : closedOn S h1) (v : HVal) (b : Nat)
    (hr : Reach h2 v b) : (∀ a ∈ hvalAddrs v, S a) → Reach h1 v b := by
  induction hr with
  | here a =>
    intro _
    exact .here a
  | step a nd w c hl hw _ ih =>
    intro hv
    have hSa : S a := hv a (by simp [hvalAddrs])
    have hl1 : lookupN h1 a = some nd := (hag a hSa).symm.trans hl
    have hch : ∀ x ∈ hvalAddrs w, S x :=
      fun x hx => hcl a hSa nd hl1 x (mem_nodeAddrs nd w x hw hx)
    exact .step a nd w c hl1 hw (ih hch)

/-- The heap-evolution facts shared by every fresh-building operation: the
fresh pointer only advances, the pre-existing region is untouched,
well-formedness is preserved, and no freshly written node points below a
bound that the old heap already respected. -/
structure CloneOut (h h2 : Heap) : Prop where
  next_le : h.next ≤ h2.next
  agree : ∀ a, a < h.next → lookupN h2 a = lookupN h a
  wf : heapWf h → heapWf h2
  hi : heapWf h → ∀ b, b ≤ h.next → regionHi b h → regionHi b h2

theorem CloneOut.refl (h : Heap) : CloneOut h h :=
  ⟨le_refl _, fun _ _ => rfl, id, fun _ _ _ hr => hr⟩

theorem CloneOut.trans {h1 h2 h3 : Heap} (x : CloneOut h1 h2) (y : CloneOut h2 h3) :
    CloneOut h1 h3 :=
  ⟨le_trans x.next_le y.next_le,
   fun a ha => (y.agree a (lt_of_lt_of_le ha x.next_le)).trans (x.agree a ha),
   fun hw => y.wf (x.wf hw),
   fun hw b hb hrh => y.hi (x.wf hw) b (le_trans hb x.next_le) (x.hi hw b hb hrh)⟩

theorem cloneOut_alloc (h0 hC : Heap) (co : CloneOut h0 hC) (nd : Node)
    (hnd : ∀ c ∈ nodeAddrs nd, h0.next ≤ c ∧ c < hC.next) :
    CloneOut h0 (alloc hC nd).2 := by
  refine ⟨?_, ?_, ?_, ?_⟩
  · have : (alloc hC nd).2.next = hC.next + 1 := rfl
    rw [this]
    exact le_trans co.next_le (Nat.le_succ _)
  · intro a ha
    have hle := co.next_le
    rw [lookupN_alloc_ne hC nd a (by omega)]
    exact co.agree a ha
  · intro hw
    exact heapWf_alloc hC nd (co.wf hw) (fun c hc => (hnd c hc).2)
  · intro hw b hb hrh
    intro a ha nd2 hl c hc
    by_cases hae : a = hC.next
    · subst hae
      have heq : some nd = some nd2 := (lookupN_alloc_self hC nd).symm.trans hl
      injection heq with heq2
      subst heq2
      exact le_trans hb (hnd c hc).1
    · rw [lookupN_alloc_ne hC nd a hae] at hl
      exact co.hi hw b hb hrh a ha nd2 hl c hc

theorem toValH_agree_below (h1 h2 : Heap) (hwf1 : heapWf h1)
    (hag : ∀ a, a < h1.next → lookupN h2 a = lookupN h1 a) :
    ∀ m : Nat,
      (∀ v, valBelow h1.next v → toValH m h2 v = toValH m h1 v)
    ∧ (∀ fs, (∀ p ∈ fs, valBelow h1.next (Prod.snd p)) →
        toFieldsH m h2 fs = toFieldsH m h1 fs)
    ∧ (∀ es, (∀ v ∈ es, valBelow h1.next v) → toListH m h2 es = toListH m h1 es) := by
  have hcl : closedOn (fun a => a < h1.next) h1 := by
    intro a _ nd hl c hc
    exact (heapWf_lookup h1 hwf1 a nd hl).2 c hc
  exact toValH_agree (fun a => a < h1.next) h1 h2 hag hcl

theorem nodeAddrs_mem_inv (nd : Node) (c : Nat) (hc : c ∈ nodeAddrs nd) :
    ∃ v ∈ nodeVals nd, c ∈ hvalAddrs v := by
  simpa [nodeAddrs, List.mem_flatMap] using hc

theorem valBelow_mono (b1 b2 : Nat) (v : HVal) (h : valBelow b1 v) (hb : b1 ≤ b2) :
    valBelow b2 v :=
  fun a ha => lt_of_lt_of_le (h a ha) hb

theorem wf_obj_fields_below (h : Heap) (hwf : heapWf h) (a : Nat)
    (fs : List (String × HVal)) (hl : lookupN h a = some (.objN fs)) :
    ∀ p ∈ fs, valBelow h.next (Prod.snd p) := by
  intro p hp x hx
  refine (heapWf_lookup h hwf a _ hl).2 x (mem_nodeAddrs _ p.2 x ?_ hx)
  simp [nodeVals]
  exact ⟨p.1, hp⟩

theorem wf_arr_elems_below (h : Heap) (hwf : heapWf h) (a : Nat)
    (es : List HVal) (hl : lookupN h a = some (.arrN es)) :
    ∀ v ∈ es, valBelow h.next v := by
  intro v hv x hx
  refine (heapWf_lookup h hwf a _ hl).2 x (mem_nodeAddrs _ v x ?_ hx)
  simp [nodeVals, hv]

theorem cloneH_spec : ∀ n : Nat,
    (∀ h v v2 h2, cloneValH n h v = some (v2, h2) →
      CloneOut h h2
      ∧ (∀ a ∈ hvalAddrs v2, h.next ≤ a ∧ a < h2.next)
      ∧ (heapWf h → valBelow h.next v → ∀ m, toValH m h2 v2 = toValH m h v))
  ∧ (∀ h fs fs2 h2, cloneFieldsH n h fs = some (fs2, h2) →
      CloneOut h h2
      ∧ (∀ p ∈ fs2, ∀ a ∈ hvalAddrs (Prod.snd p), h.next ≤ a ∧ a < h2.next)
      ∧ (heapWf h → (∀ p ∈ fs, valBelow h.next (Prod.snd p)) →
          ∀ m, toFieldsH m h2 fs2 = toFieldsH m h fs))
  ∧ (∀ h es es2 h2, cloneListH n h es = some (es2, h2) →
      CloneOut h h2
      ∧ (∀ v ∈ es2, ∀ a ∈ hvalAddrs v, h.next ≤ a ∧ a < h2.next)
      ∧ (heapWf h → (∀ v ∈ es, valBelow h.next v) →
          ∀ m, toListH m h2 es2 = toListH m h es)) := by
  intro n
  induction n with
  | zero =>
    refine ⟨?_, ?_, ?_⟩ <;> intros h x y z hcl <;> simp [cloneValH, cloneFieldsH, cloneListH]
      at hcl
  | succ m ihm =>
    refine ⟨?_, ?_, ?_⟩
    · intro h v v2 h2 hcl
      cases v with
      | prim p =>
        simp only [cloneValH, Option.some.injEq, Prod.mk.injEq] at hcl
        obtain ⟨hv2, hh2⟩ := hcl
        subst hv2
        subst hh2
        exact ⟨CloneOut.refl h, by simp [hvalAddrs], fun _ _ m => rfl⟩
      | ref a =>
        cases hla : lookupN h a with
        | none => simp [cloneValH, hla] at hcl
        | some nd =>
          cases nd with
          | objN fs =>
            simp only [cloneValH, hla, Option.bind_eq_some] at hcl
            obtain ⟨⟨fs2, hC⟩, hcf, heq⟩ := hcl
            simp only [Option.some.injEq, Prod.mk.injEq] at heq
            obtain ⟨hv2, hh2⟩ := heq
            subst hv2
            subst hh2
            obtain ⟨ihA, ihB, ihC⟩ := ihm.2.1 h fs fs2 hC hcf
            have hfresh : ∀ c ∈ nodeAddrs (Node.objN fs2), h.next ≤ c ∧ c < hC.next := by
              intro c hc
              obtain ⟨w, hw, hcw⟩ := nodeAddrs_mem_inv _ c hc
              simp only [nodeVals, List.mem_map] at hw
              obtain ⟨p, hp, hpw⟩ := hw
              exact ihB p hp c (hpw ▸ hcw)
            refine ⟨cloneOut_alloc h hC ihA _ hfresh, ?_, ?_⟩
            · intro x hx
              simp only [hvalAddrs, List.mem_singleton] at hx
              subst hx
              show h.next ≤ hC.next ∧ hC.next < hC.next + 1
              exact ⟨ihA.next_le, Nat.lt_succ_self _⟩
            · intro hw hvb mm
              cases mm with
              | zero => simp [toValH]
              | succ mm =>
                have hwfC : heapWf hC := ihA.wf hw
                have hself : lookupN (alloc hC (.objN fs2)).2 hC.next = some (.objN fs2) :=
                  lookupN_alloc_self hC (.objN fs2)
                have hag : ∀ x, x < hC.next →
                    lookupN (alloc hC (.objN fs2)).2 x = lookupN hC x := by
                  intro x hx
                  exact lookupN_alloc_ne hC _ x (by omega)
                have hfl : toFieldsH mm (alloc hC (.objN fs2)).2 fs2 = toFieldsH mm hC fs2 :=
                  (toValH_agree_below hC _ hwfC hag mm).2.1 fs2
                    (fun p hp x hx => (ihB p hp x hx).2)
                have hfl2 : toFieldsH mm hC fs2 = toFieldsH mm h fs :=
                  ihC hw (wf_obj_fields_below h hw a fs hla) mm
                show toValH (mm + 1) (alloc hC (.objN fs2)).2 (.ref hC.next)
                  = toValH (mm + 1) h (.ref a)
                rw [toValH.eq_def]
                simp only [hself]
                rw [toValH.eq_def]
                simp only [hla]
                rw [hfl, hfl2]
          | arrN es =>
            simp only [cloneValH, hla, Option.bind_eq_some] at hcl
            obtain ⟨⟨es2, hC⟩, hcf, heq⟩ := hcl
            simp only [Option.some.injEq, Prod.mk.injEq] at heq
            obtain ⟨hv2, hh2⟩ := heq
            subst hv2
            subst hh2
            obtain ⟨ihA, ihB, ihC⟩ := ihm.2.2 h es es2 hC hcf
            have hfresh : ∀ c ∈ nodeAddrs (Node.arrN es2), h.next ≤ c ∧ c < hC.next := by
              intro c hc
              obtain ⟨w, hw, hcw⟩ := nodeAddrs_mem_inv _ c hc
              simp only [nodeVals] at hw
              exact ihB w hw c hcw
            refine ⟨cloneOut_alloc h hC ihA _ hfresh, ?_, ?_⟩
            · intro x hx
              simp only [hvalAddrs, List.mem_singleton] at hx
              subst hx
              show h.next ≤ hC.next ∧ hC.next < hC.next + 1
              exact ⟨ihA.next_le, Nat.lt_succ_self _⟩
            · intro hw hvb mm
              cases mm with
              | zero => simp [toValH]
              | succ mm =>
                have hwfC : heapWf hC := ihA.wf hw
                have hself : lookupN (alloc hC (.arrN es2)).2 hC.next = some (.arrN es2) :=
                  lookupN_alloc_self hC (.arrN es2)
                have hag : ∀ x, x < hC.next →
                    lookupN (alloc hC (.arrN es2)).2 x = lookupN hC x := by
                  intro x hx
                  exact lookupN_alloc_ne hC _ x (by omega)
                have hfl : toListH mm (alloc hC (.arrN es2)).2 es2 = toListH mm hC es2 :=
                  (toValH_agree_below hC _ hwfC hag mm).2.2 es2
                    (fun w hw2 x hx => (ihB w hw2 x hx).2)
                have hfl2 : toListH mm hC es2 = toListH mm h es :=
                  ihC hw (wf_arr_elems_below h hw a es hla) mm
                show toValH (mm + 1) (alloc hC (.arrN es2)).2 (.ref hC.next)
                  = toValH (mm + 1) h (.ref a)
                rw [toValH.eq_def]
                simp only [hself]
                rw [toValH.eq_def]
                simp only [hla]
                rw [hfl, hfl2]
    · intro h fs fs2 h2 hcl
      cases fs with
      | nil =>
        simp only [cloneFieldsH, Option.some.injEq, Prod.mk.injEq] at hcl
        obtain ⟨hfs2, hh2⟩ := hcl
        subst hfs2
        subst hh2
        exact ⟨CloneOut.refl h, by simp, fun _ _ m => rfl⟩
      | cons p rest =>
        obtain ⟨k, v⟩ := p
        simp only [cloneFieldsH, Option.bind_eq_some] at hcl
        obtain ⟨⟨v1, h1⟩, hv1, ⟨rest2, hR⟩, hrest, heq⟩ := hcl
        simp only [Option.some.injEq, Prod.mk.injEq] at heq
        obtain ⟨hfs2, hh2⟩ := heq
        subst hfs2
        subst hh2
        obtain ⟨vA, vB, vC⟩ := ihm.1 h v v1 h1 hv1
        obtain ⟨rA, rB, rC⟩ := ihm.2.1 h1 rest rest2 hR hrest
        refine ⟨vA.trans rA, ?_, ?_⟩
        · intro q hq x hx
          rcases List.mem_cons.mp hq with hq | hq
          · subst hq
            have := vB x hx
            have := rA.next_le
            omega
          · have := rB q hq x hx
            have := vA.next_le
            omega
        · intro hw hvb mm
          have hwf1 : heapWf h1 := vA.wf hw
          have hv1val : toValH mm hR v1 = toValH mm h1 v1 :=
            (toValH_agree_below h1 hR hwf1 rA.agree mm).1 v1 (fun x hx => (vB x hx).2)
          have hv1val2 : toValH mm h1 v1 = toValH mm h v :=
            vC hw (hvb (k, v) (by simp)) mm
          have hrestval : toFieldsH mm hR rest2 = toFieldsH mm h1 rest :=
            rC hwf1 (fun q hq => valBelow_mono h.next h1.next q.2
              (hvb q (by simp [hq])) vA.next_le) mm
          have hrestval2 : toFieldsH mm h1 rest = toFieldsH mm h rest :=
            (toValH_agree_below h h1 hw vA.agree mm).2.1 rest
              (fun q hq => hvb q (by simp [hq]))
          rw [toFieldsH.eq_def]
          simp only []
          rw [show toFieldsH mm h ((k, v) :: rest)
            = (toValH mm h v).bind fun pv =>
              (toFieldsH mm h rest).bind fun prest => some ((k, pv) :: prest) from by
            rw [toFieldsH.eq_def]]
          rw [hv1val, hv1val2, hrestval, hrestval2]
    · intro h es es2 h2 hcl
      cases es with
      | nil =>
        simp only [cloneListH, Option.some.injEq, Prod.mk.injEq] at hcl
        obtain ⟨hes2, hh2⟩ := hcl
        subst hes2
        subst hh2
        exact ⟨CloneOut.refl h, by simp, fun _ _ m => rfl⟩
      | cons v rest =>
        simp only [cloneListH, Option.bind_eq_some] at hcl
        obtain ⟨⟨v1, h1⟩, hv1, ⟨rest2, hR⟩, hrest, heq⟩ := hcl
        simp only [Option.some.injEq, Prod.mk.injEq] at heq
        obtain ⟨hes2, hh2⟩ := heq
        subst hes2
        subst hh2
        obtain ⟨vA, vB, vC⟩ := ihm.1 h v v1 h1 hv1
        obtain ⟨rA, rB, rC⟩ := ihm.2.2 h1 rest rest2 hR hrest
        refine ⟨vA.trans rA, ?_, ?_⟩
        · intro w hw x hx
          rcases List.mem_cons.mp hw with hw | hw
          · subst hw
            have := vB x hx
            have := rA.next_le
            omega
          · have := rB w hw x hx
            have := vA.next_le
            omega
        · intro hw hvb mm
          have hwf1 : heapWf h1 := vA.wf hw
          have hv1val : toValH mm hR v1 = toValH mm h1 v1 :=
            (toValH_agree_below h1 hR hwf1 rA.agree mm).1 v1 (fun x hx => (vB x hx).2)
          have hv1val2 : toValH mm h1 v1 = toValH mm h v :=
            vC hw (hvb v (by simp)) mm
          have hrestval : toListH mm hR rest2 = toListH mm h1 rest :=
            rC hwf1 (fun w hw2 => valBelow_mono h.next h1.next w
              (hvb w (by simp [hw2])) vA.next_le) mm
          have hrestval2 : toListH mm h1 rest = toListH mm h rest :=
            (toValH_agree_below h h1 hw vA.agree mm).2.2 rest
              (fun w hw2 => hvb w (by simp [hw2]))
          rw [toListH.eq_def]
          simp only []
          rw [show toListH mm h (v :: rest)
            = (toValH mm h v).bind fun pv =>
              (toListH mm h rest).bind fun prest => some (pv :: prest) from by
            rw [toListH.eq_def]]
          rw [hv1val, hv1val2, hrestval, hrestval2]

theorem lookupKeyH_mem : ∀ (lfs : List (String × HVal)) (k : String) (w : HVal),
    lookupKeyH lfs k = some w → (k, w) ∈ lfs
  | [], _, _, h => by simp [lookupKeyH] at h
  | (k', v') :: rest, k, w, h => by
    by_cases hk : k' = k
    · subst hk
      simp [lookupKeyH] at h
      simp [h]
    · simp only [lookupKeyH, if_neg hk] at h
      simp [lookupKeyH_mem rest k w h]

theorem setKeyH_val_mem : ∀ (lfs : List (String × HVal)) (k : String) (w : HVal)
    (p : String × HVal), p ∈ setKeyH lfs k w → p.2 = w ∨ p ∈ lfs
  | [], k, w, p, h => by
    simp [setKeyH] at h
    simp [h]
  | (k', v') :: rest, k, w, p, h => by
    by_cases hk : k' = k
    · subst hk
      simp only [setKeyH, if_pos rfl] at h
      rcases List.mem_cons.mp h with h | h
      · subst h
        simp
      · simp [h]
    · simp only [setKeyH, if_neg hk] at h
      rcases List.mem_cons.mp h with h | h
      · subst h
        simp
      · rcases setKeyH_val_mem rest k w p h with h2 | h2
        · simp [h2]
        · simp [h2]

theorem toFieldsH_lookup (m : Nat) (h : Heap) :
    ∀ (lfs : List (String × HVal)) (plfs : List (String × Value)) (k : String),
    toFieldsH m h lfs = some plfs →
    ((lookupKeyH lfs k = none ∧ lookupKey plfs k = none)
     ∨ ∃ w pw, lookupKeyH lfs k = some w ∧ lookupKey plfs k = some pw
        ∧ toValH m h w = some pw)
  | [], plfs, k, hf => by
    rw [toFieldsH.eq_def] at hf
    simp at hf
    subst hf
    exact Or.inl ⟨rfl, rfl⟩
  | (k', v') :: rest, plfs, k, hf => by
    rw [toFieldsH.eq_def] at hf
    simp only [Option.bind_eq_some] at hf
    obtain ⟨pv, hpv, prest, hprest, heq⟩ := hf
    simp only [Option.some.injEq] at heq
    subst heq
    by_cases hk : k' = k
    · subst hk
      exact Or.inr ⟨v', pv, by simp [lookupKeyH], by simp [lookupKey], hpv⟩
    · rcases toFieldsH_lookup m h rest prest k hprest with ⟨hn1, hn2⟩ | ⟨w, pw, hw1, hw2, hw3⟩
      · exact Or.inl ⟨by simp [lookupKeyH, hk, hn1], by simp [lookupKey, hk, hn2]⟩
      · exact Or.inr ⟨w, pw, by simp [lookupKeyH, hk, hw1], by simp [lookupKey, hk, hw2], hw3⟩

theorem toFieldsH_setKey (m : Nat) (h : Heap) :
    ∀ (lfs : List (String × HVal)) (plfs : List (String × Value)) (k : String)
    (w : HVal) (pw : Value),
    toFieldsH m h lfs = some plfs → toValH m h w = some pw →
    toFieldsH m h (setKeyH lfs k w) = some (setKey plfs k pw)
  | [], plfs, k, w, pw, hf, hw => by
    rw [toFieldsH.eq_def] at hf
    simp at hf
    subst hf
    rw [show setKeyH [] k w = [(k, w)] from rfl, show setKey [] k pw = [(k, pw)] from rfl]
    rw [toFieldsH.eq_def]
    simp [hw, toFieldsH]
  | (k', v') :: rest, plfs, k, w, pw, hf, hw => by
    rw [toFieldsH.eq_def] at hf
    simp only [Option.bind_eq_some] at hf
    obtain ⟨pv, hpv, prest, hprest, heq⟩ := hf
    simp only [Option.some.injEq] at heq
    subst heq
    by_cases hk : k' = k
    · subst hk
      rw [show setKeyH ((k', v') :: rest) k' w = (k', w) :: rest from by simp [setKeyH]]
      rw [show setKey ((k', pv) :: prest) k' pw = (k', pw) :: prest from by simp [setKey]]
      rw [toFieldsH.eq_def]
      simp [hw, hprest]
    · rw [show setKeyH ((k', v') :: rest) k w = (k', v') :: setKeyH rest k w from by
        simp [setKeyH, hk]]
      rw [show setKey ((k', pv) :: prest) k pw = (k', pv) :: setKey prest k pw from by
        simp [setKey, hk]]
      rw [toFieldsH.eq_def]
      simp [hpv, toFieldsH_setKey m h rest prest k w pw hprest hw]

theorem toListH_append (m : Nat) (h : Heap) :
    ∀ (es1 es2 : List HVal) (pes1 pes2 : List Value),
    toListH m h es1 = some pes1 → toListH m h es2 = some pes2 →
    toListH m h (es1 ++ es2) = some (pes1 ++ pes2)
  | [], es2, pes1, pes2, h1, h2 => by
    rw [toListH.eq_def] at h1
    simp at h1
    subst h1
    simpa using h2
  | v :: rest, es2, pes1, pes2, h1, h2 => by
    rw [toListH.eq_def] at h1
    simp only [Option.bind_eq_some] at h1
    obtain ⟨pv, hpv, prest, hprest, heq⟩ := h1
    simp only [Option.some.injEq] at heq
    subst heq
    rw [show (v :: rest) ++ es2 = v :: (rest ++ es2) from rfl]
    rw [toListH.eq_def]
    simp [hpv, toListH_append m h rest es2 prest pes2 hprest h2]

theorem isScalar_primToValue (p : PrimVal) : isScalar (primToValue p) = true := by
  cases p <;> rfl

theorem mergePairH_spec : ∀ n : Nat,
    (∀ ab h l r res h2, mergePairH n ab h l r = some (res, h2) →
      CloneOut h h2
      ∧ (∀ a ∈ hvalAddrs res, h.next ≤ a ∧ a < h2.next)
      ∧ (heapWf h → valBelow h.next l → valBelow h.next r →
          ∀ m lv rv, toValH m h l = some lv → toValH m h r = some rv →
          toValH m h2 res = some (mergeTwo ab lv rv)))
  ∧ (∀ ab h lfs rfs out h2, mergeFieldsH n ab h lfs rfs = some (out, h2) →
      CloneOut h h2
      ∧ (∀ lo, lo ≤ h.next →
          (∀ p ∈ lfs, ∀ a ∈ hvalAddrs (Prod.snd p), lo ≤ a ∧ a < h.next) →
          ∀ p ∈ out, ∀ a ∈ hvalAddrs (Prod.snd p), lo ≤ a ∧ a < h2.next)
      ∧ (heapWf h → (∀ p ∈ lfs, valBelow h.next (Prod.snd p)) →
          (∀ p ∈ rfs, valBelow h.next (Prod.snd p)) →
          ∀ m plfs prfs, toFieldsH m h lfs = some plfs → toFieldsH m h rfs = some prfs →
          toFieldsH m h2 out = some (mergeFieldsList ab plfs prfs))) := by
  intro n
  induction n with
  | zero =>
    constructor
    · intro ab h l r res h2 hmp
      simp [mergePairH] at hmp
    · intro ab h lfs rfs out h2 hmf
      simp [mergeFieldsH] at hmf
  | succ m' ihm =>
    constructor
    · intro ab h l r res h2 hmp
      cases r with
      | prim p =>
        simp only [mergePairH, Option.some.injEq, Prod.mk.injEq] at hmp
        obtain ⟨hres, hh2⟩ := hmp
        subst hres
        subst hh2
        refine ⟨CloneOut.refl h, by simp [hvalAddrs], ?_⟩
        intro hw hvl hvr m lv rv hlv hrv
        cases m with
        | zero => rw [toValH.eq_def] at hrv; simp at hrv
        | succ mm =>
          rw [toValH.eq_def] at hrv
          simp only [Option.some.injEq] at hrv
          subst hrv
          rw [mergeTwo_scalar_right ab lv (primToValue p) (isScalar_primToValue p)]
          rw [toValH.eq_def]
      | ref ra =>
        cases hra : lookupN h ra with
        | none => simp [mergePairH, hra] at hmp
        | some rnd =>
          cases rnd with
          | objN rfs =>
            have hrvread : ∀ m rv, toValH m h (.ref ra) = some rv →
                ∃ mm prfs, m = mm + 1 ∧ rv = .obj prfs ∧ toFieldsH mm h rfs = some prfs := by
              intro m rv hrv
              cases m with
              | zero => rw [toValH.eq_def] at hrv; simp at hrv
              | succ mm =>
                rw [toValH.eq_def] at hrv
                simp only [hra, Option.map_eq_some'] at hrv
                obtain ⟨prfs, hprfs, hrv2⟩ := hrv
                exact ⟨mm, prfs, rfl, hrv2.symm, hprfs⟩
            cases l with
            | ref la =>
              cases hla : lookupN h la with
              | some lnd =>
                cases lnd with
                | objN lfs =>
                  simp only [mergePairH, hra, hla, Option.bind_eq_some] at hmp
                  obtain ⟨⟨fsC, hC⟩, hcf, ⟨out, hM⟩, hmf, heq⟩ := hmp
                  simp only [Option.some.injEq, Prod.mk.injEq] at heq
                  obtain ⟨hres, hh2⟩ := heq
                  subst hres
                  subst hh2
                  obtain ⟨cA, cB, cC⟩ := cloneH_spec m' |>.2.1 h lfs fsC hC hcf
                  obtain ⟨mA, mB, mC⟩ := ihm.2 ab hC fsC rfs out hM hmf
                  have hABfresh : ∀ p ∈ out, ∀ a ∈ hvalAddrs (Prod.snd p),
                      h.next ≤ a ∧ a < hM.next := by
                    refine mB h.next cA.next_le ?_
                    intro p hp a ha
                    exact cB p hp a ha
                  have hfresh : ∀ c ∈ nodeAddrs (Node.objN out), h.next ≤ c ∧ c < hM.next := by
                    intro c hc
                    obtain ⟨w, hw, hcw⟩ := nodeAddrs_mem_inv _ c hc
                    simp only [nodeVals, List.mem_map] at hw
                    obtain ⟨p, hp, hpw⟩ := hw
                    exact hABfresh p hp c (hpw ▸ hcw)
                  refine ⟨cloneOut_alloc h hM (cA.trans mA) _ hfresh, ?_, ?_⟩
                  · intro x hx
                    simp only [hvalAddrs, List.mem_singleton] at hx
                    subst hx
                    show h.next ≤ hM.next ∧ hM.next < hM.next + 1
                    exact ⟨(cA.trans mA).next_le, Nat.lt_succ_self _⟩
                  · intro hw hvl hvr m lv rv hlv hrv
                    obtain ⟨mm, prfs, hmeq, hrveq, hprfs⟩ := hrvread m rv hrv
                    subst hmeq
                    subst hrveq
                    rw [toValH.eq_def] at hlv
                    simp only [hla, Option.map_eq_some'] at hlv
                    obtain ⟨plfs, hplfs, hlv2⟩ := hlv
                    subst hlv2
                    have hwfC : heapWf hC := cA.wf hw
                    have hlfsb := wf_obj_fields_below h hw la lfs hla
                    have hrfsb := wf_obj_fields_below h hw ra rfs hra
                    have hfsCread : toFieldsH mm hC fsC = some plfs := by
                      rw [cC hw hlfsb mm]
                      exact hplfs
                    have hrfsread : toFieldsH mm hC rfs = some prfs := by
                      rw [(toValH_agree_below h hC hw cA.agree mm).2.1 rfs hrfsb]
                      exact hprfs
                    have hout : toFieldsH mm hM out
                        = some (mergeFieldsList ab plfs prfs) :=
                      mC hwfC (fun p hp => fun x hx => (cB p hp x hx).2)
                        (fun p hp => valBelow_mono h.next hC.next p.2 (hrfsb p hp) cA.next_le)
                        mm plfs prfs hfsCread hrfsread
                    have hself : lookupN (alloc hM (.objN out)).2 hM.next
                        = some (.objN out) := lookupN_alloc_self hM (.objN out)
                    have hagM : ∀ x, x < hM.next →
                        lookupN (alloc hM (.objN out)).2 x = lookupN hM x := by
                      intro x hx
                      exact lookupN_alloc_ne hM _ x (by omega)
                    have houtstay : toFieldsH mm (alloc hM (.objN out)).2 out
                        = toFieldsH mm hM out :=
                      (toValH_agree_below hM _ (mA.wf hwfC) hagM mm).2.1 out
                        (fun p hp x hx => (hABfresh p hp x hx).2)
                    show toValH (mm + 1) (alloc hM (.objN out)).2 (.ref hM.next)
                      = some (mergeTwo ab (.obj plfs) (.obj prfs))
                    rw [toValH.eq_def]
                    simp only [hself, houtstay, hout]
                    rw [show mergeTwo ab (.obj plfs) (.obj prfs)
                      = .obj (mergeFieldsList ab plfs prfs) from rfl]
                    rfl
                | arrN les =>
                  simp only [mergePairH, hra, hla] at hmp
                  obtain ⟨cA, cB, cC⟩ := cloneH_spec (m') |>.1 h (.ref ra) res h2 hmp
                  refine ⟨cA, cB, ?_⟩
                  intro hw hvl hvr m lv rv hlv hrv
                  obtain ⟨mm, prfs, hmeq, hrveq, hprfs⟩ := hrvread m rv hrv
                  subst hmeq
                  subst hrveq
                  rw [toValH.eq_def] at hlv
                  simp only [hla, Option.map_eq_some'] at hlv
                  obtain ⟨ples, hples, hlv2⟩ := hlv
                  subst hlv2
                  rw [cC hw hvr (mm + 1) ]
                  rw [show mergeTwo ab (.arr ples) (.obj prfs)
                    = .obj (copyFields prfs) from rfl]
                  rw [copyFields_eq_self]
                  rw [toValH.eq_def]
                  simp [hra, hprfs]
              | none =>
                simp only [mergePairH, hra, hla] at hmp
                obtain ⟨cA, cB, cC⟩ := cloneH_spec (m') |>.1 h (.ref ra) res h2 hmp
                refine ⟨cA, cB, ?_⟩
                intro hw hvl hvr m lv rv hlv hrv
                cases m with
                | zero => rw [toValH.eq_def] at hrv; simp at hrv
                | succ mm =>
                  rw [toValH.eq_def] at hlv
                  simp only [hla] at hlv
                  simp at hlv
            | prim lp =>
              simp only [mergePairH, hra] at hmp
              obtain ⟨cA, cB, cC⟩ := cloneH_spec (m') |>.1 h (.ref ra) res h2 hmp
              refine ⟨cA, cB, ?_⟩
              intro hw hvl hvr m lv rv hlv hrv
              obtain ⟨mm, prfs, hmeq, hrveq, hprfs⟩ := hrvread m rv hrv
              subst hmeq
              subst hrveq
              rw [toValH.eq_def] at hlv
              simp only [Option.some.injEq] at hlv
              subst hlv
              rw [cC hw hvr (mm + 1)]
              rw [show mergeTwo ab (primToValue lp) (.obj prfs)
                = .obj (copyFields prfs) from by cases lp <;> rfl]
              rw [copyFields_eq_self]
              rw [toValH.eq_def]
              simp [hra, hprfs]
          | arrN res_e =>
            have hrvread : ∀ m rv, toValH m h (.ref ra) = some rv →
                ∃ mm pres, m = mm + 1 ∧ rv = .arr pres ∧ toListH mm h res_e = some pres := by
              intro m rv hrv
              cases m with
              | zero => rw [toValH.eq_def] at hrv; simp at hrv
              | succ mm =>
                rw [toValH.eq_def] at hrv
                simp only [hra, Option.map_eq_some'] at hrv
                obtain ⟨pres, hpres, hrv2⟩ := hrv
                exact ⟨mm, pres, rfl, hrv2.symm, hpres⟩
            cases l with
            | ref la =>
              cases hla : lookupN h la with
              | some lnd =>
                cases lnd with
                | arrN les =>
                  by_cases hab : ab = ArrayBehaviour.merge
                  · subst hab
                    simp only [mergePairH, hra, hla, if_pos rfl] at hmp
                    have hmp2 : (cloneListH m' h les).bind (fun p =>
                        (cloneListH m' p.2 res_e).bind fun q =>
                          some (HVal.ref (alloc q.2 (.arrN (p.1 ++ q.1))).1,
                            (alloc q.2 (.arrN (p.1 ++ q.1))).2)) = some (res, h2) := hmp
                    simp only [Option.bind_eq_some] at hmp2
                    obtain ⟨⟨lesC, hC⟩, hcl1, ⟨resC, hD⟩, hcl2, heq⟩ := hmp2
                    simp only [Option.some.injEq, Prod.mk.injEq] at heq
                    obtain ⟨hres, hh2⟩ := heq
                    subst hres
                    subst hh2
                    obtain ⟨c1A, c1B, c1C⟩ := cloneH_spec m' |>.2.2 h les lesC hC hcl1
                    obtain ⟨c2A, c2B, c2C⟩ := cloneH_spec m' |>.2.2 hC res_e resC hD hcl2
                    have hfresh : ∀ c ∈ nodeAddrs (Node.arrN (lesC ++ resC)),
                        h.next ≤ c ∧ c < hD.next := by
                      intro c hc
                      obtain ⟨w, hw, hcw⟩ := nodeAddrs_mem_inv _ c hc
                      simp only [nodeVals, List.mem_append] at hw
                      rcases hw with hw | hw
                      · have := c1B w hw c hcw
                        have := c2A.next_le
                        omega
                      · have := c2B w hw c hcw
                        have := c1A.next_le
                        omega
                    refine ⟨cloneOut_alloc h hD (c1A.trans c2A) _ hfresh, ?_, ?_⟩
                    · intro x hx
                      simp only [hvalAddrs, List.mem_singleton] at hx
                      subst hx
                      show h.next ≤ hD.next ∧ hD.next < hD.next + 1
                      exact ⟨(c1A.trans c2A).next_le, Nat.lt_succ_self _⟩
                    · intro hw hvl hvr m lv rv hlv hrv
                      obtain ⟨mm, pres, hmeq, hrveq, hpres⟩ := hrvread m rv hrv
                      subst hmeq
                      subst hrveq
                      rw [toValH.eq_def] at hlv
                      simp only [hla, Option.map_eq_some'] at hlv
                      obtain ⟨ples, hples, hlv2⟩ := hlv
                      subst hlv2
                      have hwfC : heapWf hC := c1A.wf hw
                      have hlesb := wf_arr_elems_below h hw la les hla
                      have hresb := wf_arr_elems_below h hw ra res_e hra
                      have hlesCread : toListH mm hC lesC = some ples := by
                        rw [c1C hw hlesb mm]
                        exact hples
                      have hresCread : toListH mm hD resC = some pres := by
                        rw [c2C hwfC (fun w hw2 => valBelow_mono h.next hC.next w
                          (hresb w hw2) c1A.next_le) mm]
                        rw [(toValH_agree_below h hC hw c1A.agree mm).2.2 res_e hresb]
                        exact hpres
                      have hlesCstay : toListH mm hD lesC = some ples := by
                        rw [(toValH_agree_below hC hD hwfC c2A.agree mm).2.2 lesC
                          (fun w hw2 x hx => (c1B w hw2 x hx).2)]
                        exact hlesCread
                      have happ : toListH mm hD (lesC ++ resC) = some (ples ++ pres) :=
                        toListH_append mm hD lesC resC ples pres hlesCstay hresCread
                      have hself : lookupN (alloc hD (.arrN (lesC ++ resC))).2 hD.next
                          = some (.arrN (lesC ++ resC)) := lookupN_alloc_self hD _
                      have hagD : ∀ x, x < hD.next →
                          lookupN (alloc hD (.arrN (lesC ++ resC))).2 x = lookupN hD x := by
                        intro x hx
                        exact lookupN_alloc_ne hD _ x (by omega)
                      have happ2 : toListH mm (alloc hD (.arrN (lesC ++ resC))).2
                          (lesC ++ resC) = some (ples ++ pres) := by
                        rw [(toValH_agree_below hD _ (c2A.wf hwfC) hagD mm).2.2 (lesC ++ resC)
                          ?_]
                        · exact happ
                        · intro w hw2 x hx
                          rcases List.mem_append.mp hw2 with hw2 | hw2
                          · have := c1B w hw2 x hx
                            have := c2A.next_le
                            omega
                          · exact (c2B w hw2 x hx).2
                      show toValH (mm + 1) (alloc hD (.arrN (lesC ++ resC))).2
                          (.ref hD.next) = some (mergeTwo .merge (.arr ples) (.arr pres))
                      rw [toValH.eq_def]
                      simp only [hself, happ2]
                      rw [show mergeTwo .merge (.arr ples) (.arr pres)
                        = .arr (copyList ples ++ copyList pres) from rfl]
                      rw [copyList_eq_self, copyList_eq_self]
                      rfl
                  · simp only [mergePairH, hra, hla, if_neg hab] at hmp
                    obtain ⟨cA, cB, cC⟩ := cloneH_spec (m') |>.1 h (.ref ra) res h2 hmp
                    refine ⟨cA, cB, ?_⟩
                    intro hw hvl hvr m lv rv hlv hrv
                    obtain ⟨mm, pres, hmeq, hrveq, hpres⟩ := hrvread m rv hrv
                    subst hmeq
                    subst hrveq
                    rw [toValH.eq_def] at hlv
                    simp only [hla, Option.map_eq_some'] at hlv
                    obtain ⟨ples, hples, hlv2⟩ := hlv
                    subst hlv2
                    rw [cC hw hvr (mm + 1)]
                    rw [show mergeTwo ab (.arr ples) (.arr pres)
                      = .arr (copyList pres) from by
                      simp [mergeTwo, hab]]
                    rw [copyList_eq_self]
                    rw [toValH.eq_def]
                    simp [hra, hpres]
                | objN lfs =>
                  simp only [mergePairH, hra, hla] at hmp
                  obtain ⟨cA, cB, cC⟩ := cloneH_spec (m') |>.1 h (.ref ra) res h2 hmp
                  refine ⟨cA, cB, ?_⟩
                  intro hw hvl hvr m lv rv hlv hrv
                  obtain ⟨mm, pres, hmeq, hrveq, hpres⟩ := hrvread m rv hrv
                  subst hmeq
                  subst hrveq
                  rw [toValH.eq_def] at hlv
                  simp only [hla, Option.map_eq_some'] at hlv
                  obtain ⟨plfs, hplfs, hlv2⟩ := hlv
                  subst hlv2
                  rw [cC hw hvr (mm + 1)]
                  rw [show mergeTwo ab (.obj plfs) (.arr pres)
                    = .arr (copyList pres) from rfl]
                  rw [copyList_eq_self]
                  rw [toValH.eq_def]
                  simp [hra, hpres]
              | none =>
                simp only [mergePairH, hra, hla] at hmp
                obtain ⟨cA, cB, cC⟩ := cloneH_spec (m') |>.1 h (.ref ra) res h2 hmp
                refine ⟨cA, cB, ?_⟩
                intro hw hvl hvr m lv rv hlv hrv
                cases m with
                | zero => rw [toValH.eq_def] at hrv; simp at hrv
                | succ mm =>
                  rw [toValH.eq_def] at hlv
                  simp only [hla] at hlv
                  simp at hlv
            | prim lp =>
              simp only [mergePairH, hra] at hmp
              obtain ⟨cA, cB, cC⟩ := cloneH_spec (m') |>.1 h (.ref ra) res h2 hmp
              refine ⟨cA, cB, ?_⟩
              intro hw hvl hvr m lv rv hlv hrv
              obtain ⟨mm, pres, hmeq, hrveq, hpres⟩ := hrvread m rv hrv
              subst hmeq
              subst hrveq
              rw [toValH.eq_def] at hlv
              simp only [Option.some.injEq] at hlv
              subst hlv
              rw [cC hw hvr (mm + 1)]
              rw [show mergeTwo ab (primToValue lp) (.arr pres)
                = .arr (copyList pres) from by cases lp <;> rfl]
              rw [copyList_eq_self]
              rw [toValH.eq_def]
              simp [hra, hpres]
    · intro ab h lfs rfs out h2 hmf
      cases rfs with
      | nil =>
        simp only [mergeFieldsH, Option.some.injEq, Prod.mk.injEq] at hmf
        obtain ⟨hout, hh2⟩ := hmf
        subst hout
        subst hh2
        refine ⟨CloneOut.refl h, ?_, ?_⟩
        · intro lo hlo hl p hp x hx
          exact hl p hp x hx
        · intro hw hl hr m plfs prfs hplfs hprfs
          rw [toFieldsH.eq_def] at hprfs
          simp at hprfs
          subst hprfs
          simpa [mergeFieldsList] using hplfs
      | cons p rest =>
        obtain ⟨k, rv⟩ := p
        simp only [mergeFieldsH, Option.bind_eq_some] at hmf
        obtain ⟨⟨w, hP⟩, hmp, hrest⟩ := hmf
        obtain ⟨pA, pB, pC⟩ := ihm.1 ab h ((lookupKeyH lfs k).getD (.prim .pUndef)) rv w hP hmp
        obtain ⟨rA, rB, rC⟩ := ihm.2 ab hP (setKeyH lfs k w) rest out h2 hrest
        refine ⟨pA.trans rA, ?_, ?_⟩
        · intro lo hlo hl
          refine rB lo (le_trans hlo pA.next_le) ?_
          intro q hq x hx
          rcases setKeyH_val_mem lfs k w q hq with hq2 | hq2
          · rw [hq2] at hx
            have := pB x hx
            omega
          · have := hl q hq2 x hx
            have := pA.next_le
            omega
        · intro hw hl hr m plfs prfs hplfs hprfs
          rw [toFieldsH.eq_def] at hprfs
          simp only [Option.bind_eq_some] at hprfs
          obtain ⟨prv, hprv, prest, hprest, heqp⟩ := hprfs
          simp only [Option.some.injEq] at heqp
          subst heqp
          cases m with
          | zero => rw [toValH.eq_def] at hprv; simp at hprv
          | succ mm =>
            have hlheap : toValH (mm + 1) h ((lookupKeyH lfs k).getD (.prim .pUndef))
                = some ((lookupKey plfs k).getD .vUndef) := by
              rcases toFieldsH_lookup (mm + 1) h lfs plfs k hplfs with ⟨hn1, hn2⟩
                | ⟨wl, pwl, hw1, hw2, hw3⟩
              · rw [hn1, hn2]
                rw [toValH.eq_def]
                rfl
              · rw [hw1, hw2]
                exact hw3
            have hlbelow : valBelow h.next ((lookupKeyH lfs k).getD (.prim .pUndef)) := by
              cases hlk : lookupKeyH lfs k with
              | none =>
                intro a ha
                simp [hvalAddrs] at ha
              | some wl =>
                exact hl (k, wl) (lookupKeyH_mem lfs k wl hlk)
            have hrvbelow : valBelow h.next rv := hr (k, rv) (by simp)
            have hwval : toValH (mm + 1) hP w
                = some (mergeTwo ab ((lookupKey plfs k).getD .vUndef) prv) :=
              pC hw hlbelow hrvbelow (mm + 1) _ prv hlheap hprv
            have hwfP : heapWf hP := pA.wf hw
            have hlfsP : toFieldsH (mm + 1) hP lfs = some plfs := by
              rw [(toValH_agree_below h hP hw pA.agree (mm + 1)).2.1 lfs hl]
              exact hplfs
            have hsetP : toFieldsH (mm + 1) hP (setKeyH lfs k w)
                = some (setKey plfs k (mergeTwo ab ((lookupKey plfs k).getD .vUndef) prv)) :=
              toFieldsH_setKey (mm + 1) hP lfs plfs k w _ hlfsP hwval
            have hrestP : toFieldsH (mm + 1) hP rest = some prest := by
              rw [(toValH_agree_below h hP hw pA.agree (mm + 1)).2.1 rest
                (fun q hq => hr q (by simp [hq]))]
              exact hprest
            have hsetbelow : ∀ q ∈ setKeyH lfs k w, valBelow hP.next (Prod.snd q) := by
              intro q hq x hx
              rcases setKeyH_val_mem lfs k w q hq with hq2 | hq2
              · rw [hq2] at hx
                exact (pB x hx).2
              · have := hl q hq2 x hx
                have := pA.next_le
                omega
            have hrestbelow : ∀ q ∈ rest, valBelow hP.next (Prod.snd q) := by
              intro q hq
              exact valBelow_mono h.next hP.next q.2 (hr q (by simp [hq])) pA.next_le
            have := rC hwfP hsetbelow hrestbelow (mm + 1) _ prest hsetP hrestP
            rw [this]
            rw [show mergeFieldsList ab plfs ((k, prv) :: prest)
              = mergeFieldsList ab
                  (setKey plfs k (mergeTwo ab ((lookupKey plfs k).getD .vUndef) prv))
                  prest from rfl]

theorem delKeyH_val_mem : ∀ (fs : List (String × HVal)) (k : String) (p : String × HVal),
    p ∈ delKeyH fs k → p ∈ fs
  | [], _, _, h => by simp [delKeyH] at h
  | (k', v') :: rest, k, p, h => by
    by_cases hk : k' = k
    · simp only [delKeyH, if_pos hk] at h
      simp [h]
    · simp only [delKeyH, if_neg hk] at h
      rcases List.mem_cons.mp h with h | h
      · simp [h]
      · simp [delKeyH_val_mem rest k p h]

theorem regionHi_setN (b : Nat) (h : Heap) (t : Nat) (nd : Node)
    (hrh : regionHi b h) (hnd : b ≤ t → ∀ c ∈ nodeAddrs nd, b ≤ c) :
    regionHi b (setN h t nd) := by
  intro a ha nd2 hl c hc
  by_cases hat : a = t
  · subst hat
    rw [lookupN_setN_self] at hl
    cases hl
    exact hnd ha c hc
  · rw [lookupN_setN_ne h t nd a hat] at hl
    exact hrh a ha nd2 hl c hc

theorem prim_not_reach (h : Heap) (p : PrimVal) (t : Nat) : ¬ Reach h (.prim p) t := by
  intro hr
  cases hr

theorem hvalAddrs_mem (v : HVal) (a : Nat) (ha : a ∈ hvalAddrs v) : v = .ref a := by
  cases v with
  | prim p => simp [hvalAddrs] at ha
  | ref c =>
    simp [hvalAddrs] at ha
    rw [ha]

theorem toValH_agree_noreach (h h2 : Heap) (t : Nat) (hw : heapWf h)
    (hag : ∀ a, a < h.next → a ≠ t → lookupN h2 a = lookupN h a) :
    ∀ m : Nat,
      (∀ v, valBelow h.next v → ¬ Reach h v t → toValH m h2 v = toValH m h v)
    ∧ (∀ fs, (∀ p ∈ fs, valBelow h.next (Prod.snd p) ∧ ¬ Reach h (Prod.snd p) t) →
        toFieldsH m h2 fs = toFieldsH m h fs) := by
  have hagS : agreeOn (fun a => a < h.next ∧ ¬ Reach h (.ref a) t) h h2 := by
    intro a ⟨ha, hnr⟩
    exact hag a ha (fun he => hnr (he ▸ Reach.here a))
  have hclS : closedOn (fun a => a < h.next ∧ ¬ Reach h (.ref a) t) h := by
    intro a ⟨ha, hnr⟩ nd hl c hc
    obtain ⟨w, hwv, hcw⟩ := nodeAddrs_mem_inv nd c hc
    refine ⟨(heapWf_lookup h hw a nd hl).2 c hc, ?_⟩
    intro hrc
    exact hnr (Reach.step a nd w t hl hwv (by
      cases w with
      | prim p => simp [hvalAddrs] at hcw
      | ref b =>
        simp [hvalAddrs] at hcw
        subst hcw
        exact hrc))
  intro m
  have := toValH_agree (fun a => a < h.next ∧ ¬ Reach h (.ref a) t) h h2 hagS hclS m
  refine ⟨?_, ?_⟩
  · intro v hb hnr
    refine this.1 v ?_
    intro a ha
    rw [hvalAddrs_mem v a ha] at hb hnr
    exact ⟨hb a (by simp [hvalAddrs]), hnr⟩
  · intro fs hfs
    refine this.2.1 fs ?_
    intro p hp a ha
    obtain ⟨hb, hnr⟩ := hfs p hp
    rw [hvalAddrs_mem p.2 a ha] at hb hnr
    exact ⟨hb a (by simp [hvalAddrs]), hnr⟩

theorem reach_noreach_preserved (h h2 : Heap) (t : Nat) (hw : heapWf h)
    (hag : ∀ a, a < h.next → a ≠ t → lookupN h2 a = lookupN h a)
    (v : HVal) (hb : valBelow h.next v) (hnr : ¬ Reach h v t) : ¬ Reach h2 v t := by
  intro hr
  apply hnr
  have hagS : agreeOn (fun a => a < h.next ∧ ¬ Reach h (.ref a) t) h h2 := by
    intro a ⟨ha, hnr2⟩
    exact hag a ha (fun he => hnr2 (he ▸ Reach.here a))
  have hclS : closedOn (fun a => a < h.next ∧ ¬ Reach h (.ref a) t) h := by
    intro a ⟨ha, hnr2⟩ nd hl c hc
    obtain ⟨w, hwv, hcw⟩ := nodeAddrs_mem_inv nd c hc
    refine ⟨(heapWf_lookup h hw a nd hl).2 c hc, ?_⟩
    intro hrc
    exact hnr2 (Reach.step a nd w t hl hwv (by
      cases w with
      | prim p => simp [hvalAddrs] at hcw
      | ref b =>
        simp [hvalAddrs] at hcw
        subst hcw
        exact hrc))
  refine reach_agree_mp (fun a => a < h.next ∧ ¬ Reach h (.ref a) t) h h2 hagS hclS v t hr ?_
  intro a ha
  rw [hvalAddrs_mem v a ha] at hb hnr
  exact ⟨hb a (by simp [hvalAddrs]), hnr⟩

theorem toValH_agree_band (hA hB : Heap) (lo : Nat) (hwA : heapWf hA) (hhi : regionHi lo hA)
    (hag : ∀ a, lo ≤ a → a < hA.next → lookupN hB a = lookupN hA a) :
    ∀ m : Nat,
      (∀ v, (∀ a ∈ hvalAddrs v, lo ≤ a ∧ a < hA.next) → toValH m hB v = toValH m hA v) := by
  have hclS : closedOn (fun a => lo ≤ a ∧ a < hA.next) hA := by
    intro a ⟨hla, ha⟩ nd hl c hc
    exact ⟨hhi a hla nd hl c hc, (heapWf_lookup hA hwA a nd hl).2 c hc⟩
  intro m
  exact (toValH_agree (fun a => lo ≤ a ∧ a < hA.next) hA hB
    (fun a ⟨h1, h2⟩ => hag a h1 h2) hclS m).1

/-- The heap-evolution facts of the in-place merge into a target address `t`:
everything below the old fresh pointer except `t` itself is untouched. -/
structure MutOut (t : Nat) (h h2 : Heap) : Prop where
  next_le : h.next ≤ h2.next
  agree : ∀ a, a < h.next → a ≠ t → lookupN h2 a = lookupN h a
  wf : heapWf h → t < h.next → heapWf h2
  hi : heapWf h → t < h.next → ∀ b, b ≤ h.next → regionHi b h → regionHi b h2

theorem mergeObjIntoH_spec : ∀ (n : Nat) (ab : ArrayBehaviour) (h : Heap) (t : Nat)
    (sfs : List (String × HVal)) (h2 : Heap),
    mergeObjIntoH n ab h t sfs = some h2 →
    MutOut t h h2
    ∧ (heapWf h → t < h.next →
        (∀ p ∈ sfs, valBelow h.next (Prod.snd p)) →
        (∀ p ∈ sfs, ¬ Reach h (Prod.snd p) t) →
        ∀ (tfs : List (String × HVal)), lookupN h t = some (.objN tfs) →
        (∀ p ∈ tfs, ¬ Reach h (Prod.snd p) t) →
        ∀ m ptfs psfs, toFieldsH m h tfs = some ptfs → toFieldsH m h sfs = some psfs →
        ∃ outFs, lookupN h2 t = some (.objN outFs)
          ∧ toFieldsH m h2 outFs = some (mergeFieldsList ab ptfs psfs)
          ∧ (∀ p ∈ outFs, ¬ Reach h2 (Prod.snd p) t)) := by
  intro n
  induction n with
  | zero =>
    intro ab h t sfs h2 hm
    simp [mergeObjIntoH] at hm
  | succ n ihn =>
    intro ab h t sfs h2 hm
    cases sfs with
    | nil =>
      simp only [mergeObjIntoH, Option.some.injEq] at hm
      subst hm
      constructor
      · exact ⟨le_refl _, fun _ _ _ => rfl, fun hw _ => hw, fun _ _ _ _ hr => hr⟩
      · intro hw ht _ _ tfs htfs htnr m ptfs psfs hptfs hpsfs
        rw [toFieldsH.eq_def] at hpsfs
        simp at hpsfs
        subst hpsfs
        exact ⟨tfs, htfs, by simpa [mergeFieldsList] using hptfs, htnr⟩
    | cons q rest =>
      obtain ⟨k, rv⟩ := q
      cases hlt : lookupN h t with
      | none => simp [mergeObjIntoH, hlt] at hm
      | some nd =>
        cases nd with
        | arrN es => simp [mergeObjIntoH, hlt] at hm
        | objN tfs0 =>
          simp only [mergeObjIntoH, hlt, Option.bind_eq_some] at hm
          obtain ⟨⟨w, hP⟩, hmp, hrec⟩ := hm
          obtain ⟨pA, pB, pC⟩ := (mergePairH_spec n).1 ab h
            ((lookupKeyH tfs0 k).getD (.prim .pUndef)) rv w hP hmp
          obtain ⟨ihA, ihC⟩ := ihn ab (setN hP t (.objN (setKeyH tfs0 k w))) t rest h2 hrec
          have hsetnext : (setN hP t (.objN (setKeyH tfs0 k w))).next = hP.next := rfl
          have hmut : MutOut t h h2 := by
            refine ⟨?_, ?_, ?_, ?_⟩
            · have h1 := pA.next_le
              have h2le := ihA.next_le
              rw [hsetnext] at h2le
              omega
            · intro a ha hat
              have h1 := ihA.agree a (by rw [hsetnext]; exact lt_of_lt_of_le ha pA.next_le)
                hat
              rw [h1, lookupN_setN_ne hP t _ a hat]
              exact pA.agree a ha
            · intro hw ht
              have hwfP : heapWf hP := pA.wf hw
              have hwfset : heapWf (setN hP t (.objN (setKeyH tfs0 k w))) := by
                refine heapWf_setN hP t _ hwfP (lt_of_lt_of_le ht pA.next_le) ?_
                intro c hc
                obtain ⟨v, hv, hcv⟩ := nodeAddrs_mem_inv _ c hc
                simp only [nodeVals, List.mem_map] at hv
                obtain ⟨p, hp, hpv⟩ := hv
                rcases setKeyH_val_mem tfs0 k w p hp with hp2 | hp2
                · have := pB c (by rw [← hpv, hp2] at hcv; exact hcv)
                  omega
                · have hb := wf_obj_fields_below h hw t tfs0 hlt p hp2 c
                    (by rw [← hpv] at hcv; exact hcv)
                  exact lt_of_lt_of_le hb pA.next_le
              exact ihA.wf hwfset (by rw [hsetnext]; exact lt_of_lt_of_le ht pA.next_le)
            · intro hw ht b hb hrh
              have hwfP : heapWf hP := pA.wf hw
              have hrhP : regionHi b hP := pA.hi hw b hb hrh
              have hrhset : regionHi b (setN hP t (.objN (setKeyH tfs0 k w))) := by
                refine regionHi_setN b hP t _ hrhP ?_
                intro hbt c hc
                obtain ⟨v, hv, hcv⟩ := nodeAddrs_mem_inv _ c hc
                simp only [nodeVals, List.mem_map] at hv
                obtain ⟨p, hp, hpv⟩ := hv
                rcases setKeyH_val_mem tfs0 k w p hp with hp2 | hp2
                · have := pB c (by rw [← hpv, hp2] at hcv; exact hcv)
                  omega
                · exact hrh t hbt _ hlt c (mem_nodeAddrs _ p.2 c
                    (by simp [nodeVals]; exact ⟨p.1, hp2⟩) (by rw [← hpv] at hcv; exact hcv))
              have hwfset : heapWf (setN hP t (.objN (setKeyH tfs0 k w))) := by
                refine heapWf_setN hP t _ hwfP (lt_of_lt_of_le ht pA.next_le) ?_
                intro c hc
                obtain ⟨v, hv, hcv⟩ := nodeAddrs_mem_inv _ c hc
                simp only [nodeVals, List.mem_map] at hv
                obtain ⟨p, hp, hpv⟩ := hv
                rcases setKeyH_val_mem tfs0 k w p hp with hp2 | hp2
                · have := pB c (by rw [← hpv, hp2] at hcv; exact hcv)
                  omega
                · have hb2 := wf_obj_fields_below h hw t tfs0 hlt p hp2 c
                    (by rw [← hpv] at hcv; exact hcv)
                  exact lt_of_lt_of_le hb2 pA.next_le
              exact ihA.hi hwfset (by rw [hsetnext]; exact lt_of_lt_of_le ht pA.next_le)
                b (by rw [hsetnext]; exact le_trans hb pA.next_le) hrhset
          refine ⟨hmut, ?_⟩
          intro hw ht hsb hsnr tfs htfs htnr m ptfs psfs hptfs hpsfs
          have htfseq : tfs = tfs0 := (Node.objN.inj (Option.some.inj htfs)).symm
          rw [htfseq] at hptfs htnr
          rw [toFieldsH.eq_def] at hpsfs
          simp only [Option.bind_eq_some] at hpsfs
          obtain ⟨prv, hprv, prest, hprest, heqp⟩ := hpsfs
          simp only [Option.some.injEq] at heqp
          subst heqp
          cases m with
          | zero => rw [toValH.eq_def] at hprv; simp at hprv
          | succ mm =>
            have hwfP : heapWf hP := pA.wf hw
            have htP : t < hP.next := lt_of_lt_of_le ht pA.next_le
            have htfsb := wf_obj_fields_below h hw t tfs0 hlt
            have hlheap : toValH (mm + 1) h ((lookupKeyH tfs0 k).getD (.prim .pUndef))
                = some ((lookupKey ptfs k).getD .vUndef) := by
              rcases toFieldsH_lookup (mm + 1) h tfs0 ptfs k hptfs with ⟨hn1, hn2⟩
                | ⟨wl, pwl, hw1, hw2, hw3⟩
              · rw [hn1, hn2]
                rw [toValH.eq_def]
                rfl
              · rw [hw1, hw2]
                exact hw3
            have hlbelow : valBelow h.next ((lookupKeyH tfs0 k).getD (.prim .pUndef)) := by
              cases hlk : lookupKeyH tfs0 k with
              | none =>
                intro a ha
                simp [hvalAddrs] at ha
              | some wl =>
                exact htfsb (k, wl) (lookupKeyH_mem tfs0 k wl hlk)
            have hrvbelow : valBelow h.next rv := hsb (k, rv) (by simp)
            have hwval : toValH (mm + 1) hP w
                = some (mergeTwo ab ((lookupKey ptfs k).getD .vUndef) prv) :=
              pC hw hlbelow hrvbelow (mm + 1) _ prv hlheap hprv
            set hSet := setN hP t (.objN (setKeyH tfs0 k w)) with hSetDef
            have hsetag : ∀ a, h.next ≤ a → a < hP.next → lookupN hSet a = lookupN hP a := by
              intro a ha1 ha2
              exact lookupN_setN_ne hP t _ a (by omega)
            have hrhP : regionHi h.next hP :=
              pA.hi hw h.next (le_refl _) (regionHi_of_wf h hw)
            have hwvalSet : toValH (mm + 1) hSet w
                = some (mergeTwo ab ((lookupKey ptfs k).getD .vUndef) prv) := by
              rw [toValH_agree_band hP hSet h.next hwfP hrhP hsetag (mm + 1) w pB]
              exact hwval
            have hagPset : ∀ a, a < h.next → a ≠ t → lookupN hSet a = lookupN h a := by
              intro a ha hat
              rw [lookupN_setN_ne hP t _ a hat]
              exact pA.agree a ha
            have htfs0Set : toFieldsH (mm + 1) hSet tfs0 = some ptfs := by
              rw [(toValH_agree_noreach h hSet t hw hagPset (mm + 1)).2 tfs0
                (fun p hp => ⟨htfsb p hp, htnr p hp⟩)]
              exact hptfs
            have hsetread : toFieldsH (mm + 1) hSet (setKeyH tfs0 k w)
                = some (setKey ptfs k
                    (mergeTwo ab ((lookupKey ptfs k).getD .vUndef) prv)) :=
              toFieldsH_setKey (mm + 1) hSet tfs0 ptfs k w _ htfs0Set hwvalSet
            have hrestread : toFieldsH (mm + 1) hSet rest = some prest := by
              rw [(toValH_agree_noreach h hSet t hw hagPset (mm + 1)).2 rest
                (fun p hp => ⟨hsb p (by simp [hp]), hsnr p (by simp [hp])⟩)]
              exact hprest
            have hwfSet : heapWf hSet := by
              refine heapWf_setN hP t _ hwfP htP ?_
              intro c hc
              obtain ⟨v, hv, hcv⟩ := nodeAddrs_mem_inv _ c hc
              simp only [nodeVals, List.mem_map] at hv
              obtain ⟨p, hp, hpv⟩ := hv
              rcases setKeyH_val_mem tfs0 k w p hp with hp2 | hp2
              · have := pB c (by rw [← hpv, hp2] at hcv; exact hcv)
                omega
              · have hb2 := htfsb p hp2 c (by rw [← hpv] at hcv; exact hcv)
                exact lt_of_lt_of_le hb2 pA.next_le
            have hrhSet : regionHi h.next hSet := by
              refine regionHi_setN h.next hP t _ hrhP ?_
              intro hbt
              omega
            have hrestb : ∀ p ∈ rest, valBelow hSet.next (Prod.snd p) := by
              intro p hp
              exact valBelow_mono h.next hSet.next p.2 (hsb p (by simp [hp]))
                (by rw [hSetDef, hsetnext]; exact pA.next_le)
            have hrestnr : ∀ p ∈ rest, ¬ Reach hSet (Prod.snd p) t := by
              intro p hp
              exact reach_noreach_preserved h hSet t hw hagPset p.2
                (hsb p (by simp [hp])) (hsnr p (by simp [hp]))
            have hsetkeynr : ∀ p ∈ setKeyH tfs0 k w, ¬ Reach hSet (Prod.snd p) t := by
              intro p hp
              rcases setKeyH_val_mem tfs0 k w p hp with hp2 | hp2
              · rw [hp2]
                intro hr
                have := reach_high hSet h.next hrhSet w t hr
                  (fun a ha => (pB a ha).1)
                omega
              · exact reach_noreach_preserved h hSet t hw hagPset p.2
                  (htfsb p hp2) (htnr p hp2)
            obtain ⟨outFs, hout1, hout2, hout3⟩ := ihC hwfSet
              (by rw [hSetDef, hsetnext]; exact htP) hrestb hrestnr
              (setKeyH tfs0 k w) (lookupN_setN_self hP t _) hsetkeynr
              (mm + 1) _ prest hsetread hrestread
            refine ⟨outFs, hout1, ?_, hout3⟩
            rw [hout2]
            rfl

/-! Heap-evolution facts for the top-level fold step and the fold itself,
parametrized by a region bound `B`: everything below `B` is untouched, the
heap stays well formed, the region above `B` keeps its no-back-pointer
property, and the accumulator's roots stay inside the region. -/

theorem mergeTopH_specA (n : Nat) (ab : ArrayBehaviour) (h : Heap) (acc src res : HVal)
    (h2 : Heap) (B : Nat)
    (hm : mergeTopH n ab h acc src = some (res, h2))
    (hB : B ≤ h.next)
    (hacc : ∀ a ∈ hvalAddrs acc, B ≤ a ∧ a < h.next)
    (hw : heapWf h) (hrh : regionHi B h) :
    h.next ≤ h2.next
    ∧ (∀ a, a < B → lookupN h2 a = lookupN h a)
    ∧ heapWf h2
    ∧ regionHi B h2
    ∧ (∀ a ∈ hvalAddrs res, B ≤ a ∧ a < h2.next) := by
  have hcase : ∀ w : HVal, cloneValH n h w = some (res, h2) →
      h.next ≤ h2.next ∧ (∀ a, a < B → lookupN h2 a = lookupN h a) ∧ heapWf h2
      ∧ regionHi B h2 ∧ ∀ a ∈ hvalAddrs res, B ≤ a ∧ a < h2.next := by
    intro w hcl
    obtain ⟨co, hfresh, _⟩ := (cloneH_spec n).1 h w res h2 hcl
    exact ⟨co.next_le, fun a ha => co.agree a (lt_of_lt_of_le ha hB), co.wf hw,
      co.hi hw B hB hrh, fun a ha => ⟨le_trans hB (hfresh a ha).1, (hfresh a ha).2⟩⟩
  cases src with
  | prim p =>
    simp only [mergeTopH, Option.some.injEq, Prod.mk.injEq] at hm
    obtain ⟨hres, hh2⟩ := hm
    subst hres
    subst hh2
    exact ⟨le_refl _, fun _ _ => rfl, hw, hrh, by simp [hvalAddrs]⟩
  | ref sa =>
    cases hsa : lookupN h sa with
    | none => simp [mergeTopH, hsa] at hm
    | some snd =>
      cases snd with
      | objN sfs =>
        cases acc with
        | prim q =>
          simp only [mergeTopH, hsa] at hm
          exact hcase _ hm
        | ref ta =>
          cases hta : lookupN h ta with
          | none =>
            simp only [mergeTopH, hsa, hta] at hm
            exact hcase _ hm
          | some tnd =>
            cases tnd with
            | arrN tes =>
              simp only [mergeTopH, hsa, hta] at hm
              exact hcase _ hm
            | objN tfs =>
              simp only [mergeTopH, hsa, hta, Option.map_eq_some', Prod.mk.injEq] at hm
              obtain ⟨hM, hmi, hres, hh2⟩ := hm
              subst hh2
              subst hres
              obtain ⟨mo, _⟩ := mergeObjIntoH_spec n ab h ta sfs hM hmi
              have hta2 : B ≤ ta ∧ ta < h.next := hacc ta (by simp [hvalAddrs])
              refine ⟨mo.next_le, ?_, mo.wf hw hta2.2,
                mo.hi hw hta2.2 B hB hrh, ?_⟩
              · intro a ha
                exact mo.agree a (by omega) (by omega)
              · intro a ha
                simp [hvalAddrs] at ha
                subst ha
                exact ⟨hta2.1, lt_of_lt_of_le hta2.2 mo.next_le⟩
      | arrN ses =>
        cases acc with
        | prim q =>
          simp only [mergeTopH, hsa] at hm
          exact hcase _ hm
        | ref ta =>
          cases hta : lookupN h ta with
          | none =>
            simp only [mergeTopH, hsa, hta] at hm
            exact hcase _ hm
          | some tnd =>
            cases tnd with
            | objN tfs =>
              simp only [mergeTopH, hsa, hta] at hm
              exact hcase _ hm
            | arrN tes =>
              by_cases hab : ab = ArrayBehaviour.merge
              · simp only [mergeTopH, hsa, hta, if_pos hab, Option.bind_eq_some] at hm
                obtain ⟨⟨les, h1⟩, hcl1, hm2⟩ := hm
                obtain ⟨⟨res2, hD⟩, hcl2, heq⟩ := hm2
                simp only [Option.some.injEq, Prod.mk.injEq] at heq
                obtain ⟨hres, hh2⟩ := heq
                subst hh2
                subst hres
                obtain ⟨co1, fr1, _⟩ := (cloneH_spec n).2.2 h tes les h1 hcl1
                obtain ⟨co2, fr2, _⟩ := (cloneH_spec n).2.2 h1 ses res2 hD hcl2
                have co : CloneOut h hD := co1.trans co2
                have hnd : ∀ c ∈ nodeAddrs (.arrN (les ++ res2)), h.next ≤ c ∧ c < hD.next := by
                  intro c hc
                  obtain ⟨w, hwv, hcw⟩ := nodeAddrs_mem_inv _ c hc
                  simp only [nodeVals, List.mem_append] at hwv
                  rcases hwv with hwv | hwv
                  · obtain ⟨hc1, hc2⟩ := fr1 w hwv c hcw
                    exact ⟨hc1, lt_of_lt_of_le hc2 co2.next_le⟩
                  · obtain ⟨hc1, hc2⟩ := fr2 w hwv c hcw
                    exact ⟨le_trans co1.next_le hc1, hc2⟩
                have coA : CloneOut h (alloc hD (.arrN (les ++ res2))).2 :=
                  cloneOut_alloc h hD co _ hnd
                refine ⟨coA.next_le, fun a ha => coA.agree a (lt_of_lt_of_le ha hB),
                  coA.wf hw, coA.hi hw B hB hrh, ?_⟩
                intro a ha
                simp [hvalAddrs] at ha
                subst ha
                show B ≤ hD.next ∧ hD.next < (alloc hD (.arrN (les ++ res2))).2.next
                rw [alloc_next]
                exact ⟨le_trans hB (le_trans co.next_le (le_refl _)), Nat.lt_succ_self _⟩
              · simp only [mergeTopH, hsa, hta, if_neg hab] at hm
                exact hcase _ hm

theorem foldTopH_specA (n : Nat) (ab : ArrayBehaviour) (B : Nat) :
    ∀ (objects : List HVal) (h : Heap) (acc res : HVal) (h2 : Heap),
    foldTopH n ab h acc objects = some (res, h2) →
    B ≤ h.next →
    (∀ a ∈ hvalAddrs acc, B ≤ a ∧ a < h.next) →
    heapWf h → regionHi B h →
    h.next ≤ h2.next
    ∧ (∀ a, a < B → lookupN h2 a = lookupN h a)
    ∧ heapWf h2
    ∧ regionHi B h2
    ∧ (∀ a ∈ hvalAddrs res, B ≤ a ∧ a < h2.next)
  | [], h, acc, res, h2, hm, hB, hacc, hw, hrh => by
    simp only [foldTopH, Option.some.injEq, Prod.mk.injEq] at hm
    obtain ⟨hres, hh2⟩ := hm
    subst hres
    subst hh2
    exact ⟨le_refl _, fun _ _ => rfl, hw, hrh, hacc⟩
  | src :: rest, h, acc, res, h2, hm, hB, hacc, hw, hrh => by
    simp only [foldTopH, Option.bind_eq_some] at hm
    obtain ⟨⟨acc1, h1⟩, hstep, hfold⟩ := hm
    obtain ⟨hn1, hag1, hw1, hrh1, hacc1⟩ :=
      mergeTopH_specA n ab h acc src acc1 h1 B hstep hB hacc hw hrh
    obtain ⟨hn2, hag2, hw2, hrh2, hres⟩ :=
      foldTopH_specA n ab B rest h1 acc1 res h2 hfold (le_trans hB hn1) hacc1 hw1 hrh1
    exact ⟨le_trans hn1 hn2, fun a ha => (hag2 a ha).trans (hag1 a ha), hw2, hrh2, hres⟩

theorem noMutateH_specA (n : Nat) (h : Heap) (objects : List HVal) (res : HVal) (h2 : Heap)
    (hm : noMutateH n h objects = some (res, h2)) (hw : heapWf h) :
    h.next ≤ h2.next
    ∧ (∀ a, a < h.next → lookupN h2 a = lookupN h a)
    ∧ heapWf h2
    ∧ (∀ b, b ≤ h.next → regionHi b h → regionHi b h2)
    ∧ (∀ a ∈ hvalAddrs res, h.next ≤ a ∧ a < h2.next) := by
  simp only [noMutateH] at hm
  have hw1 : heapWf (alloc h (.objN [])).2 :=
    heapWf_alloc h _ hw (by simp [nodeAddrs, nodeVals])
  have key : ∀ B, B ≤ h.next → regionHi B h →
      h.next + 1 ≤ h2.next ∧ (∀ a, a < B → lookupN h2 a = lookupN h a) ∧ heapWf h2
      ∧ regionHi B h2 ∧ (∀ a ∈ hvalAddrs res, B ≤ a ∧ a < h2.next) := by
    intro B hB hrh
    have hrh1 : regionHi B (alloc h (.objN [])).2 := by
      intro a ha nd hl c hc
      by_cases hae : a = h.next
      · subst hae
        rw [show (h.next : Nat) = (alloc h (.objN [])).1 from rfl, lookupN_alloc_self] at hl
        injection hl with hl2
        subst hl2
        simp [nodeAddrs, nodeVals] at hc
      · rw [lookupN_alloc_ne h _ a hae] at hl
        exact hrh a ha nd hl c hc
    have hres := foldTopH_specA n .replace B objects (alloc h (.objN [])).2
      (.ref (alloc h (.objN [])).1) res h2 hm
      (by rw [alloc_next]; omega)
      (by
        intro a ha
        simp [hvalAddrs, alloc] at ha
        subst ha
        rw [alloc_next]
        exact ⟨hB, Nat.lt_succ_self _⟩)
      hw1 hrh1
    rw [alloc_next] at hres
    obtain ⟨r1, r2, r3, r4, r5⟩ := hres
    refine ⟨r1, ?_, r3, r4, r5⟩
    intro a ha
    rw [r2 a ha, lookupN_alloc_ne h _ a (by omega)]
  obtain ⟨k1, k2, k3, k4, k5⟩ := key h.next (le_refl _) (regionHi_of_wf h hw)
  refine ⟨by omega, k2, k3, ?_, k5⟩
  intro b hb hrh
  exact (key b hb hrh).2.2.2.1

/-! The pruning pass touches only the region at or above a bound `B` below
which its root address does not lie: it allocates nothing, leaves every node
below `B` alone, preserves heap well-formedness, and preserves the
no-back-pointer property of the region. -/

theorem mem_of_getElemOpt {α : Type} : ∀ (l : List α) (i : Nat) (x : α),
    l[i]? = some x → x ∈ l
  | [], _, _, h => by simp at h
  | a :: rest, 0, x, h => by
    simp only [List.getElem?_cons_zero, Option.some.injEq] at h
    simp [h]
  | a :: rest, i + 1, x, h => by
    simp only [List.getElem?_cons_succ] at h
    exact List.mem_cons_of_mem a (mem_of_getElemOpt rest i x h)

theorem pruneH_spec (B : Nat) : ∀ (n : Nat) (ignN ignU : Bool),
    (∀ h a h2, pruneObjH n ignN ignU h a = some h2 →
      heapWf h → regionHi B h → B ≤ a →
      h2.next = h.next ∧ (∀ x, x < B → lookupN h2 x = lookupN h x)
        ∧ heapWf h2 ∧ regionHi B h2)
  ∧ (∀ h a ks h2, pruneKeysH n ignN ignU h a ks = some h2 →
      heapWf h → regionHi B h → B ≤ a →
      h2.next = h.next ∧ (∀ x, x < B → lookupN h2 x = lookupN h x)
        ∧ heapWf h2 ∧ regionHi B h2)
  ∧ (∀ h a idxs h2, pruneIdxH n ignN ignU h a idxs = some h2 →
      heapWf h → regionHi B h → B ≤ a →
      h2.next = h.next ∧ (∀ x, x < B → lookupN h2 x = lookupN h x)
        ∧ heapWf h2 ∧ regionHi B h2) := by
  intro n
  induction n with
  | zero =>
    intro ignN ignU
    refine ⟨?_, ?_, ?_⟩
    · intro h a h2 hm
      simp [pruneObjH] at hm
    · intro h a ks h2 hm
      simp [pruneKeysH] at hm
    · intro h a idxs h2 hm
      simp [pruneIdxH] at hm
  | succ n ih =>
    intro ignN ignU
    obtain ⟨ihO, ihK, ihI⟩ := ih ignN ignU
    refine ⟨?_, ?_, ?_⟩
    · intro h a h2 hm hw hrh hBa
      cases hla : lookupN h a with
      | none =>
        simp only [pruneObjH, hla, Option.some.injEq] at hm
        subst hm
        exact ⟨rfl, fun _ _ => rfl, hw, hrh⟩
      | some nd =>
        cases nd with
        | objN fs =>
          simp only [pruneObjH, hla] at hm
          exact ihK h a (fs.map Prod.fst) h2 hm hw hrh hBa
        | arrN es =>
          simp only [pruneObjH, hla] at hm
          exact ihI h a (List.range es.length) h2 hm hw hrh hBa
    · intro h a ks h2 hm hw hrh hBa
      cases ks with
      | nil =>
        simp only [pruneKeysH, Option.some.injEq] at hm
        subst hm
        exact ⟨rfl, fun _ _ => rfl, hw, hrh⟩
      | cons k rest =>
        cases hla : lookupN h a with
        | none =>
          simp only [pruneKeysH, hla, Option.some.injEq] at hm
          subst hm
          exact ⟨rfl, fun _ _ => rfl, hw, hrh⟩
        | some nd =>
          cases nd with
          | arrN es =>
            simp only [pruneKeysH, hla, Option.some.injEq] at hm
            subst hm
            exact ⟨rfl, fun _ _ => rfl, hw, hrh⟩
          | objN fs =>
            cases hlk : lookupKeyH fs k with
            | none =>
              simp only [pruneKeysH, hla, hlk] at hm
              exact ihK h a rest h2 hm hw hrh hBa
            | some w =>
              cases w with
              | ref b =>
                have hbfs : (k, HVal.ref b) ∈ fs := lookupKeyH_mem fs k (.ref b) hlk
                have hBb : B ≤ b := by
                  refine hrh a hBa _ hla b
                    (mem_nodeAddrs _ (.ref b) b ?_ (by simp [hvalAddrs]))
                  simp only [nodeVals, List.mem_map]
                  exact ⟨(k, .ref b), hbfs, rfl⟩
                cases hlb : lookupN h b with
                | none =>
                  simp only [pruneKeysH, hla, hlk, hlb] at hm
                  exact ihK h a rest h2 hm hw hrh hBa
                | some bnd =>
                  cases bnd with
                  | arrN bes =>
                    simp only [pruneKeysH, hla, hlk, hlb] at hm
                    exact ihK h a rest h2 hm hw hrh hBa
                  | objN bfs =>
                    simp only [pruneKeysH, hla, hlk, hlb, Option.bind_eq_some] at hm
                    obtain ⟨h1, hpo, hpk⟩ := hm
                    obtain ⟨e1, e2, e3, e4⟩ := ihO h b h1 hpo hw hrh hBb
                    obtain ⟨f1, f2, f3, f4⟩ := ihK h1 a rest h2 hpk e3 e4 hBa
                    exact ⟨f1.trans e1, fun x hx => (f2 x hx).trans (e2 x hx), f3, f4⟩
              | prim p =>
                cases p with
                | pUndef =>
                  simp only [pruneKeysH, hla, hlk] at hm
                  by_cases hU : ignU = true
                  case neg =>
                    rw [if_neg hU] at hm
                    exact ihK h a rest h2 hm hw hrh hBa
                  case pos =>
                    rw [if_pos hU] at hm
                    have haN : a < h.next := (heapWf_lookup h hw a _ hla).1
                    have hdel : ∀ c ∈ nodeAddrs (Node.objN (delKeyH fs k)), c < h.next := by
                      intro c hc
                      obtain ⟨w', hwv, hcw⟩ := nodeAddrs_mem_inv _ c hc
                      simp only [nodeVals, List.mem_map] at hwv
                      obtain ⟨q, hq, hqe⟩ := hwv
                      refine (heapWf_lookup h hw a _ hla).2 c
                        (mem_nodeAddrs _ w' c ?_ hcw)
                      simp only [nodeVals, List.mem_map]
                      exact ⟨q, delKeyH_val_mem fs k q hq, hqe⟩
                    have hdelB : ∀ c ∈ nodeAddrs (Node.objN (delKeyH fs k)), B ≤ c := by
                      intro c hc
                      obtain ⟨w', hwv, hcw⟩ := nodeAddrs_mem_inv _ c hc
                      simp only [nodeVals, List.mem_map] at hwv
                      obtain ⟨q, hq, hqe⟩ := hwv
                      refine hrh a hBa _ hla c (mem_nodeAddrs _ w' c ?_ hcw)
                      simp only [nodeVals, List.mem_map]
                      exact ⟨q, delKeyH_val_mem fs k q hq, hqe⟩
                    have hwS : heapWf (setN h a (.objN (delKeyH fs k))) :=
                      heapWf_setN h a _ hw haN hdel
                    have hrhS : regionHi B (setN h a (.objN (delKeyH fs k))) :=
                      regionHi_setN B h a _ hrh (fun _ => hdelB)
                    obtain ⟨f1, f2, f3, f4⟩ :=
                      ihK (setN h a (.objN (delKeyH fs k))) a rest h2 hm hwS hrhS hBa
                    refine ⟨f1.trans (setN_next h a _), ?_, f3, f4⟩
                    intro x hx
                    rw [f2 x hx, lookupN_setN_ne h a _ x (by omega)]
                | pNull =>
                  simp only [pruneKeysH, hla, hlk] at hm
                  exact ihK h a rest h2 hm hw hrh hBa
                | pStr s =>
                  simp only [pruneKeysH, hla, hlk] at hm
                  exact ihK h a rest h2 hm hw hrh hBa
                | pNum q =>
                  simp only [pruneKeysH, hla, hlk] at hm
                  exact ihK h a rest h2 hm hw hrh hBa
                | pBool q =>
                  simp only [pruneKeysH, hla, hlk] at hm
                  exact ihK h a rest h2 hm hw hrh hBa
    · intro h a idxs h2 hm hw hrh hBa
      cases idxs with
      | nil =>
        simp only [pruneIdxH, Option.some.injEq] at hm
        subst hm
        exact ⟨rfl, fun _ _ => rfl, hw, hrh⟩
      | cons i rest =>
        cases hla : lookupN h a with
        | none =>
          simp only [pruneIdxH, hla, Option.some.injEq] at hm
          subst hm
          exact ⟨rfl, fun _ _ => rfl, hw, hrh⟩
        | some nd =>
          cases nd with
          | objN fs =>
            simp only [pruneIdxH, hla, Option.some.injEq] at hm
            subst hm
            exact ⟨rfl, fun _ _ => rfl, hw, hrh⟩
          | arrN es =>
            cases hle : es[i]? with
            | none =>
              simp only [pruneIdxH, hla, hle] at hm
              exact ihI h a rest h2 hm hw hrh hBa
            | some w =>
              cases w with
              | ref b =>
                have hbes : HVal.ref b ∈ es := mem_of_getElemOpt es i _ hle
                have hBb : B ≤ b := by
                  refine hrh a hBa _ hla b
                    (mem_nodeAddrs _ (.ref b) b ?_ (by simp [hvalAddrs]))
                  simpa [nodeVals] using hbes
                cases hlb : lookupN h b with
                | none =>
                  simp only [pruneIdxH, hla, hle, hlb] at hm
                  exact ihI h a rest h2 hm hw hrh hBa
                | some bnd =>
                  cases bnd with
                  | arrN bes =>
                    simp only [pruneIdxH, hla, hle, hlb] at hm
                    exact ihI h a rest h2 hm hw hrh hBa
                  | objN bfs =>
                    simp only [pruneIdxH, hla, hle, hlb, Option.bind_eq_some] at hm
                    obtain ⟨h1, hpo, hpk⟩ := hm
                    obtain ⟨e1, e2, e3, e4⟩ := ihO h b h1 hpo hw hrh hBb
                    obtain ⟨f1, f2, f3, f4⟩ := ihI h1 a rest h2 hpk e3 e4 hBa
                    exact ⟨f1.trans e1, fun x hx => (f2 x hx).trans (e2 x hx), f3, f4⟩
              | prim p =>
                simp only [pruneIdxH, hla, hle] at hm
                exact ihI h a rest h2 hm hw hrh hBa

theorem removeUndesirablePropsH_spec (n : Nat) (ignN ignU : Bool) (h : Heap)
    (v res : HVal) (h2 : Heap)
    (hm : removeUndesirablePropsH n ignN ignU h v = some (res, h2))
    (hw : heapWf h) (B : Nat) (_hB : B ≤ h.next) (hrh : regionHi B h)
    (hv : ∀ a ∈ hvalAddrs v, B ≤ a ∧ a < h.next) :
    h2.next = h.next ∧ (∀ x, x < B → lookupN h2 x = lookupN h x)
    ∧ heapWf h2 ∧ regionHi B h2
    ∧ (∀ a ∈ hvalAddrs res, B ≤ a ∧ a < h.next) := by
  simp only [removeUndesirablePropsH] at hm
  by_cases hfl : ignN = false ∧ ignU = false
  · rw [if_pos hfl] at hm
    simp only [Option.some.injEq, Prod.mk.injEq] at hm
    obtain ⟨he1, he2⟩ := hm
    subst he1
    subst he2
    exact ⟨rfl, fun _ _ => rfl, hw, hrh, hv⟩
  · rw [if_neg hfl] at hm
    cases v with
    | prim p =>
      simp only [Option.some.injEq, Prod.mk.injEq] at hm
      obtain ⟨he1, he2⟩ := hm
      subst he1
      subst he2
      exact ⟨rfl, fun _ _ => rfl, hw, hrh, by simp [hvalAddrs]⟩
    | ref a =>
      simp only [Option.map_eq_some', Prod.mk.injEq] at hm
      obtain ⟨h1, hpo, hres, hh2⟩ := hm
      subst hh2
      subst hres
      obtain ⟨e1, e2, e3, e4⟩ := (pruneH_spec B n ignN ignU).1 h a h1 hpo hw hrh
        (hv a (by simp [hvalAddrs])).1
      exact ⟨e1, e2, e3, e4, by simp [hvalAddrs]⟩

theorem extendPushedHeap_spec : ∀ (n : Nat) (ignN ignU first : Bool)
    (objects : List HVal) (h : Heap) (pushed : List HVal) (h2 : Heap),
    extendPushedHeap n ignN ignU first h objects = some (pushed, h2) →
    heapWf h →
    h.next ≤ h2.next
    ∧ (∀ a, a < h.next → lookupN h2 a = lookupN h a)
    ∧ heapWf h2
    ∧ (∀ b, b ≤ h.next → regionHi b h → regionHi b h2)
    ∧ (∀ v ∈ pushed, ∀ a ∈ hvalAddrs v, h.next ≤ a ∧ a < h2.next) := by
  intro n
  induction n with
  | zero =>
    intro ignN ignU first objects h pushed h2 hm
    simp [extendPushedHeap] at hm
  | succ n ih =>
    intro ignN ignU first objects h pushed h2 hm hw
    cases objects with
    | nil =>
      simp only [extendPushedHeap, Option.some.injEq, Prod.mk.injEq] at hm
      obtain ⟨hp, hh⟩ := hm
      subst hp
      subst hh
      exact ⟨le_refl _, fun _ _ => rfl, hw, fun _ _ hr => hr, by simp⟩
    | cons o rest =>
      simp only [extendPushedHeap, Option.bind_eq_some] at hm
      obtain ⟨⟨c, hC⟩, hcl, hm2⟩ := hm
      obtain ⟨⟨pv, hP⟩, hpr, hm3⟩ := hm2
      obtain ⟨⟨prest, h2x⟩, hrest, heq⟩ := hm3
      simp only [Option.some.injEq, Prod.mk.injEq] at heq
      obtain ⟨hpu, hh2⟩ := heq
      subst hh2
      subst hpu
      obtain ⟨cN, cAg, cWf, cHi, cFr⟩ := noMutateH_specA n h [o] c hC hcl hw
      have hrhC : regionHi h.next hC := cHi h.next (le_refl _) (regionHi_of_wf h hw)
      obtain ⟨pN, pAg, pWf, pRh, pFr⟩ :=
        removeUndesirablePropsH_spec n _ ignU hC c pv hP hpr cWf h.next cN hrhC cFr
      obtain ⟨rN, rAg, rWf, rHi, rFr⟩ := ih ignN ignU false rest hP prest h2x hrest pWf
      refine ⟨by omega, ?_, rWf, ?_, ?_⟩
      · intro a ha
        rw [rAg a (by omega), pAg a ha, cAg a ha]
      · intro b hb hrh
        obtain ⟨_, _, _, p4, _⟩ :=
          removeUndesirablePropsH_spec n _ ignU hC c pv hP hpr cWf b (by omega)
            (cHi b hb hrh)
            (fun a ha => ⟨le_trans hb (cFr a ha).1, (cFr a ha).2⟩)
        exact rHi b (by omega) p4
      · intro v hv a ha
        rcases List.mem_cons.mp hv with hv | hv
        · subst hv
          obtain ⟨g1, g2⟩ := pFr a ha
          exact ⟨g1, by omega⟩
        · obtain ⟨g1, g2⟩ := rFr v hv a ha
          exact ⟨by omega, g2⟩

theorem regionHi_alloc_emptyObj (h : Heap) (b : Nat) (hrh : regionHi b h) :
    regionHi b (alloc h (.objN [])).2 := by
  intro a ha nd hl c hc
  by_cases hae : a = h.next
  · subst hae
    rw [show (h.next : Nat) = (alloc h (.objN [])).1 from rfl, lookupN_alloc_self] at hl
    injection hl with hl2
    subst hl2
    simp [nodeAddrs, nodeVals] at hc
  · rw [lookupN_alloc_ne h _ a hae] at hl
    exact hrh a ha nd hl c hc

theorem extendHeap_specA (n : Nat) (h : Heap) (objects : List HVal)
    (opts : ExtendOptions) (res : HVal) (h2 : Heap)
    (hm : extendHeap n h objects opts = some (res, h2)) (hw : heapWf h) :
    h.next ≤ h2.next
    ∧ (∀ a, a < h.next → lookupN h2 a = lookupN h a)
    ∧ heapWf h2
    ∧ regionHi h.next h2
    ∧ (∀ a ∈ hvalAddrs res, h.next ≤ a ∧ a < h2.next) := by
  simp only [extendHeap, Option.bind_eq_some] at hm
  obtain ⟨⟨pushed, hE⟩, hep, hfold⟩ := hm
  have hw1 : heapWf (alloc h (.objN [])).2 :=
    heapWf_alloc h _ hw (by simp [nodeAddrs, nodeVals])
  obtain ⟨eN, eAg, eWf, eHi, eFr⟩ := extendPushedHeap_spec n _ _ true objects
    (alloc h (.objN [])).2 pushed hE hep hw1
  rw [alloc_next] at eN
  have hrh1 : regionHi h.next (alloc h (.objN [])).2 :=
    regionHi_alloc_emptyObj h h.next (regionHi_of_wf h hw)
  have hrhE : regionHi h.next hE := eHi h.next (by rw [alloc_next]; omega) hrh1
  obtain ⟨fN, fAg, fWf, fRh, fFr⟩ := foldTopH_specA n _ h.next pushed hE
    (.ref (alloc h (.objN [])).1) res h2 hfold (by omega)
    (by
      intro a ha
      simp only [hvalAddrs, List.mem_singleton] at ha
      subst ha
      show h.next ≤ h.next ∧ h.next < hE.next
      exact ⟨le_refl _, by omega⟩)
    eWf hrhE
  refine ⟨by omega, ?_, fWf, fRh, fFr⟩
  intro a ha
  rw [fAg a ha, eAg a (by rw [alloc_next]; omega), lookupN_alloc_ne h _ a (by omega)]

/-- The shape of the frame facts shared by every non-mutating entry point:
given the old region is untouched, well-formedness is preserved and the result
lives in the fresh region, every input reads back unchanged and nothing
reachable from the result is reachable from any input. -/
theorem heapOpFrame (h h2 : Heap) (res : HVal) (ins : List HVal)
    (hw : heapWf h)
    (hins : ∀ o ∈ ins, valBelow h.next o)
    (hag : ∀ a, a < h.next → lookupN h2 a = lookupN h a)
    (hrh2 : regionHi h.next h2)
    (hfr : ∀ a ∈ hvalAddrs res, h.next ≤ a) :
    (∀ m o, o ∈ ins → toValH m h2 o = toValH m h o)
    ∧ (∀ b, Reach h2 res b → ∀ o ∈ ins, ¬ Reach h2 o b) := by
  constructor
  · intro m o ho
    exact (toValH_agree_below h h2 hw hag m).1 o (hins o ho)
  · intro b hr o ho hro
    have hbhi : h.next ≤ b := reach_high h2 h.next hrh2 res b hr hfr
    have hcl : closedOn (fun a => a < h.next) h := fun a _ nd hl c hc =>
      (heapWf_lookup h hw a nd hl).2 c hc
    have hro2 : Reach h o b := reach_agree_mp (fun a => a < h.next) h h2 hag hcl o b hro
      (fun a ha => hins o ho a ha)
    have := reach_below h hw o b hro2 (hins o ho)
    omega

/-- C4: frame and no-aliasing of the non-mutating entry points, in the heap
model.  For `merge`, `clone`, `defaults` and `extend` (any options), on a
well-formed heap with inputs inside it: (i) every pre-existing heap node is
untouched, so no input is mutated; (ii) consequently every input reads back
(deep-)equal to its state before the call; (iii) no address reachable from
the result is reachable from any input — the result shares no mutable
identity with the inputs. -/
theorem c4_no_mutation_no_aliasing (n : Nat) (h : Heap) (hw : heapWf h) :
    (∀ objects res h2, (∀ o ∈ objects, valBelow h.next o) →
        mergeHeap n h objects = some (res, h2) →
        (∀ a, a < h.next → lookupN h2 a = lookupN h a)
        ∧ (∀ m o, o ∈ objects → toValH m h2 o = toValH m h o)
        ∧ (∀ b, Reach h2 res b → ∀ o ∈ objects, ¬ Reach h2 o b))
  ∧ (∀ v res h2, valBelow h.next v →
        cloneHeap n h v = some (res, h2) →
        (∀ a, a < h.next → lookupN h2 a = lookupN h a)
        ∧ (∀ m, toValH m h2 v = toValH m h v)
        ∧ (∀ b, Reach h2 res b → ¬ Reach h2 v b))
  ∧ (∀ d a r res h2, valBelow h.next d → valBelow h.next a → valBelow h.next r →
        defaultsHeap n h d a r = some (res, h2) →
        (∀ x, x < h.next → lookupN h2 x = lookupN h x)
        ∧ (∀ m o, o ∈ [d, a, r] → toValH m h2 o = toValH m h o)
        ∧ (∀ b, Reach h2 res b → ∀ o ∈ [d, a, r], ¬ Reach h2 o b))
  ∧ (∀ objects opts res h2, (∀ o ∈ objects, valBelow h.next o) →
        extendHeap n h objects opts = some (res, h2) →
        (∀ a, a < h.next → lookupN h2 a = lookupN h a)
        ∧ (∀ m o, o ∈ objects → toValH m h2 o = toValH m h o)
        ∧ (∀ b, Reach h2 res b → ∀ o ∈ objects, ¬ Reach h2 o b)) := by
  have noMut : ∀ objects res h2, (∀ o ∈ objects, valBelow h.next o) →
      noMutateH n h objects = some (res, h2) →
      (∀ a, a < h.next → lookupN h2 a = lookupN h a)
      ∧ (∀ m o, o ∈ objects → toValH m h2 o = toValH m h o)
      ∧ (∀ b, Reach h2 res b → ∀ o ∈ objects, ¬ Reach h2 o b) := by
    intro objects res h2 hins hm
    obtain ⟨nN, nAg, nWf, nHi, nFr⟩ := noMutateH_specA n h objects res h2 hm hw
    have hrh2 : regionHi h.next h2 := nHi h.next (le_refl _) (regionHi_of_wf h hw)
    obtain ⟨hread, halias⟩ := heapOpFrame h h2 res objects hw hins nAg hrh2
      (fun a ha => (nFr a ha).1)
    exact ⟨nAg, hread, halias⟩
  refine ⟨fun objects res h2 hins hm => noMut objects res h2 hins hm, ?_, ?_, ?_⟩
  · intro v res h2 hv hm
    obtain ⟨g1, g2, g3⟩ := noMut [v] res h2 (by simpa using hv) hm
    exact ⟨g1, fun m => g2 m v (by simp), fun b hr => g3 b hr v (by simp)⟩
  · intro d a r res h2 hd ha hr hm
    exact noMut [d, a, r] res h2 (by simp [hd, ha, hr]) hm
  · intro objects opts res h2 hins hm
    obtain ⟨eN, eAg, eWf, eRh, eFr⟩ := extendHeap_specA n h objects opts res h2 hm hw
    obtain ⟨hread, halias⟩ := heapOpFrame h h2 res objects hw hins eAg eRh
      (fun x hx => (eFr x hx).1)
    exact ⟨eAg, hread, halias⟩

/-- A small concrete well-formed heap: one mapping `{a: 1}` at address 0. -/
def c4WitnessHeap : Heap := ⟨[(0, .objN [("a", .prim (.pNum 1))])], 1⟩

theorem c4_no_mutation_no_aliasing_witness :
    heapWf c4WitnessHeap
  ∧ ((∀ objects res h2, (∀ o ∈ objects, valBelow c4WitnessHeap.next o) →
        mergeHeap 6 c4WitnessHeap objects = some (res, h2) →
        (∀ a, a < c4WitnessHeap.next → lookupN h2 a = lookupN c4WitnessHeap a)
        ∧ (∀ m o, o ∈ objects → toValH m h2 o = toValH m c4WitnessHeap o)
        ∧ (∀ b, Reach h2 res b → ∀ o ∈ objects, ¬ Reach h2 o b))
    ∧ (∀ v res h2, valBelow c4WitnessHeap.next v →
        cloneHeap 6 c4WitnessHeap v = some (res, h2) →
        (∀ a, a < c4WitnessHeap.next → lookupN h2 a = lookupN c4WitnessHeap a)
        ∧ (∀ m, toValH m h2 v = toValH m c4WitnessHeap v)
        ∧ (∀ b, Reach h2 res b → ¬ Reach h2 v b))
    ∧ (∀ d a r res h2, valBelow c4WitnessHeap.next d → valBelow c4WitnessHeap.next a →
          valBelow c4WitnessHeap.next r →
        defaultsHeap 6 c4WitnessHeap d a r = some (res, h2) →
        (∀ x, x < c4WitnessHeap.next → lookupN h2 x = lookupN c4WitnessHeap x)
        ∧ (∀ m o, o ∈ [d, a, r] → toValH m h2 o = toValH m c4WitnessHeap o)
        ∧ (∀ b, Reach h2 res b → ∀ o ∈ [d, a, r], ¬ Reach h2 o b))
    ∧ (∀ objects opts res h2, (∀ o ∈ objects, valBelow c4WitnessHeap.next o) →
        extendHeap 6 c4WitnessHeap objects opts = some (res, h2) →
        (∀ a, a < c4WitnessHeap.next → lookupN h2 a = lookupN c4WitnessHeap a)
        ∧ (∀ m o, o ∈ objects → toValH m h2 o = toValH m c4WitnessHeap o)
        ∧ (∀ b, Reach h2 res b → ∀ o ∈ objects, ¬ Reach h2 o b))) :=
  ⟨by unfold heapWf; decide, c4_no_mutation_no_aliasing 6 c4WitnessHeap (by unfold heapWf; decide)⟩

/-- C8: `mergeInto(target, src)` in the heap model, for mapping-valued target
and source (acyclic: no stored value reaches the target address).  The call
returns the very same target reference; every pre-existing node other than
the target's is untouched — in particular `src` reads back unchanged — and
the target afterwards reads back as exactly the two-value deep merge of its
prior content with `src`'s. -/
theorem c8_mergeInto_mutates_target_only (n : Nat) (h : Heap) (t s : Nat)
    (tfs sfs : List (String × HVal)) (res : HVal) (h2 : Heap)
    (hw : heapWf h)
    (ht : lookupN h t = some (.objN tfs))
    (hs : lookupN h s = some (.objN sfs))
    (htnr : ∀ p ∈ tfs, ¬ Reach h (Prod.snd p) t)
    (hsnr : ¬ Reach h (.ref s) t)
    (hm : mergeIntoHeap n h (.ref t) [.ref s] = some (res, h2)) :
    res = .ref t
    ∧ (∀ a, a < h.next → a ≠ t → lookupN h2 a = lookupN h a)
    ∧ (∀ m v, valBelow h.next v → ¬ Reach h v t → toValH m h2 v = toValH m h v)
    ∧ (∀ m, toValH m h2 (.ref s) = toValH m h (.ref s))
    ∧ (∀ m tv sv, toValH m h (.ref t) = some tv → toValH m h (.ref s) = some sv →
        toValH m h2 (.ref t) = some (mergeTwo .replace tv sv)) := by
  simp only [mergeIntoHeap, foldTopH, Option.bind_eq_some] at hm
  obtain ⟨⟨r0, hM0⟩, hstep, heq⟩ := hm
  simp only [foldTopH, Option.some.injEq, Prod.mk.injEq] at heq
  obtain ⟨hr0, hh0⟩ := heq
  subst hr0
  subst hh0
  simp only [mergeTopH, hs, ht, Option.map_eq_some', Prod.mk.injEq] at hstep
  obtain ⟨hM, hmi, hres, hMeq⟩ := hstep
  subst hMeq
  subst hres
  obtain ⟨mo, corr⟩ := mergeObjIntoH_spec n .replace h t sfs _ hmi
  have htN : t < h.next := (heapWf_lookup h hw t _ ht).1
  have hsN : s < h.next := (heapWf_lookup h hw s _ hs).1
  have hsfsb : ∀ p ∈ sfs, valBelow h.next (Prod.snd p) := wf_obj_fields_below h hw s sfs hs
  have hsfsnr : ∀ p ∈ sfs, ¬ Reach h (Prod.snd p) t := by
    intro p hp hr
    refine hsnr (Reach.step s _ p.2 t hs ?_ hr)
    simp only [nodeVals, List.mem_map]
    exact ⟨p, hp, rfl⟩
  have hagree := mo.agree
  refine ⟨rfl, hagree, ?_, ?_, ?_⟩
  · intro m v hb hnr
    exact (toValH_agree_noreach h _ t hw hagree m).1 v hb hnr
  · intro m
    refine (toValH_agree_noreach h _ t hw hagree m).1 (.ref s) ?_ hsnr
    intro a ha
    simp only [hvalAddrs, List.mem_singleton] at ha
    omega
  · intro m tv sv htv hsv
    cases m with
    | zero =>
      rw [toValH.eq_def] at htv
      simp at htv
    | succ mm =>
      rw [toValH.eq_def] at htv
      simp only [ht, Option.map_eq_some'] at htv
      obtain ⟨ptfs, hptfs, htv2⟩ := htv
      subst htv2
      rw [toValH.eq_def] at hsv
      simp only [hs, Option.map_eq_some'] at hsv
      obtain ⟨psfs, hpsfs, hsv2⟩ := hsv
      subst hsv2
      obtain ⟨outFs, ho1, ho2, _⟩ := corr hw htN hsfsb hsfsnr tfs ht htnr mm ptfs psfs
        hptfs hpsfs
      rw [toValH.eq_def]
      simp only [ho1, ho2, Option.map_eq_some']
      exact ⟨mergeFieldsList .replace ptfs psfs, rfl, rfl⟩

/-- Concrete two-mapping heap for the `mergeInto` witness: `{a:1}` at address
0 (the target) and `{b:2}` at address 1 (the source). -/
def c8Heap : Heap :=
  ⟨[(0, .objN [("a", .prim (.pNum 1))]), (1, .objN [("b", .prim (.pNum 2))])], 2⟩

/-- The heap after the witness call: the target node now holds `{a:1, b:2}`
(the newest binding of address 0 shadows the old one), the source node is
untouched. -/
def c8HeapAfter : Heap :=
  ⟨[(0, .objN [("a", .prim (.pNum 1)), ("b", .prim (.pNum 2))]),
    (0, .objN [("a", .prim (.pNum 1))]),
    (1, .objN [("b", .prim (.pNum 2))])], 2⟩

theorem c8_mergeInto_witness :
    heapWf c8Heap
  ∧ lookupN c8Heap 0 = some (.objN [("a", .prim (.pNum 1))])
  ∧ lookupN c8Heap 1 = some (.objN [("b", .prim (.pNum 2))])
  ∧ (∀ p ∈ [("a", HVal.prim (PrimVal.pNum 1))], ¬ Reach c8Heap (Prod.snd p) 0)
  ∧ ¬ Reach c8Heap (.ref 1) 0
  ∧ mergeIntoHeap 6 c8Heap (.ref 0) [.ref 1] = some (.ref 0, c8HeapAfter)
  ∧ (HVal.ref 0 = .ref 0
    ∧ (∀ a, a < c8Heap.next → a ≠ 0 → lookupN c8HeapAfter a = lookupN c8Heap a)
    ∧ (∀ m v, valBelow c8Heap.next v → ¬ Reach c8Heap v 0 →
        toValH m c8HeapAfter v = toValH m c8Heap v)
    ∧ (∀ m, toValH m c8HeapAfter (.ref 1) = toValH m c8Heap (.ref 1))
    ∧ (∀ m tv sv, toValH m c8Heap (.ref 0) = some tv →
        toValH m c8Heap (.ref 1) = some sv →
        toValH m c8HeapAfter (.ref 0) = some (mergeTwo .replace tv sv))) := by
  have htnr : ∀ p ∈ [("a", HVal.prim (PrimVal.pNum 1))], ¬ Reach c8Heap (Prod.snd p) 0 := by
    intro p hp
    simp only [List.mem_singleton] at hp
    subst hp
    exact prim_not_reach _ _ _
  have hsnr : ¬ Reach c8Heap (.ref 1) 0 := by
    intro hr
    cases hr with
    | step a nd v b hl hv hr2 =>
      have hx : some (Node.objN [("b", HVal.prim (.pNum 2))]) = some nd := hl
      injection hx with hx2
      subst hx2
      simp only [nodeVals, List.map_cons, List.map_nil, List.mem_singleton] at hv
      subst hv
      exact prim_not_reach _ _ _ hr2
  refine ⟨by unfold heapWf; decide, rfl, rfl, htnr, hsnr, rfl, ?_⟩
  exact c8_mergeInto_mutates_target_only 6 c8Heap 0 1 [("a", .prim (.pNum 1))]
    [("b", .prim (.pNum 2))] (.ref 0) c8HeapAfter (by unfold heapWf; decide) rfl rfl
    htnr hsnr rfl

/-- C5: `merge` is `objectAssignDeep.noMutate(...objects)`: (i) its result is
the spec's fold with `ignoreNull=false` and `ignoreUndefined=false` — no
suppression; (ii) in particular a null or undefined value at a key of a
distinct-keyed last input overwrites whatever an earlier input held at that
key; (iii) in the heap model the fold seeds a freshly allocated empty
accumulator (`mutateFirstInput=false`): every pre-existing node — hence
every input, including the first — is untouched and reads back unchanged. -/
theorem c5_merge_policy_and_no_mutation :
    (∀ objects, mergeJS objects = specFold false false .replace objects)
  ∧ (∀ os fs k v, keysDistinct fs = true → lookupKey fs k = some v →
      (v = .vNull ∨ v = .vUndef) →
      topLookup (mergeJS (os ++ [.obj fs])) k = some v)
  ∧ (∀ n h objects res h2, heapWf h → (∀ o ∈ objects, valBelow h.next o) →
      mergeHeap n h objects = some (res, h2) →
      (∀ a, a < h.next → lookupN h2 a = lookupN h a)
      ∧ (∀ m o, o ∈ objects → toValH m h2 o = toValH m h o)) := by
  refine ⟨merge_eq_specFold, ?_, ?_⟩
  · intro os fs k v hd hl hv
    rw [merge_concat_last]
    refine mergeTwo_obj_lookup_scalar .replace (mergeJS os) fs k v hd hl ?_
    rcases hv with hv | hv <;> subst hv <;> rfl
  · intro n h objects res h2 hw hins hm
    obtain ⟨nN, nAg, nWf, nHi, nFr⟩ := noMutateH_specA n h objects res h2 hm hw
    exact ⟨nAg, fun m o ho => (toValH_agree_below h h2 hw nAg m).1 o (hins o ho)⟩

/-- Concrete one-mapping heap for the `merge` witness: `{k:1}` at address 0. -/
def c5Heap : Heap := ⟨[(0, .objN [("k", .prim (.pNum 1))])], 1⟩

/-- The heap after `merge(x)` on the witness heap: the input node at address 0
is untouched; the fresh accumulator at address 1 received the merged copy. -/
def c5HeapAfter : Heap :=
  ⟨[(1, .objN [("k", .prim (.pNum 1))]), (1, .objN []),
    (0, .objN [("k", .prim (.pNum 1))])], 2⟩

theorem c5_merge_witness :
    (keysDistinct [("a", Value.vNull)] = true
      ∧ lookupKey [("a", Value.vNull)] "a" = some .vNull)
  ∧ topLookup (mergeJS ([Value.obj [("a", .vNum 1)]] ++ [.obj [("a", .vNull)]])) "a"
      = some .vNull
  ∧ (heapWf c5Heap
      ∧ (∀ o ∈ [HVal.ref 0], valBelow c5Heap.next o)
      ∧ mergeHeap 6 c5Heap [.ref 0] = some (.ref 1, c5HeapAfter))
  ∧ ((∀ a, a < c5Heap.next → lookupN c5HeapAfter a = lookupN c5Heap a)
      ∧ (∀ m o, o ∈ [HVal.ref 0] → toValH m c5HeapAfter o = toValH m c5Heap o)) := by
  have hvb : ∀ o ∈ [HVal.ref 0], valBelow c5Heap.next o := by
    unfold valBelow
    decide
  refine ⟨⟨by decide, rfl⟩, ?_, ⟨by unfold heapWf; decide, hvb, rfl⟩, ?_⟩
  · exact c5_merge_policy_and_no_mutation.2.1 [.obj [("a", .vNum 1)]] [("a", .vNull)]
      "a" .vNull (by decide) rfl (Or.inl rfl)
  · exact c5_merge_policy_and_no_mutation.2.2 6 c5Heap [.ref 0] (.ref 1) c5HeapAfter
      (by unfold heapWf; decide) hvb rfl

/-- C10: the exported `copy` is the very same function as `clone`, and the
exported `mixin` the very same function as `mergeInto` — for every argument
list they agree exactly, at the value level and in the heap model (same
result value, same resulting heap, hence the same mutation of the target). -/
theorem c10_copy_mixin_aliases :
    (∀ o, copyJS o = cloneJS o)
  ∧ (∀ t os, mixinPure t os = mergeIntoPure t os)
  ∧ (∀ n h o, copyHeap n h o = cloneHeap n h o)
  ∧ (∀ n h t os, mixinHeap n h t os = mergeIntoHeap n h t os) :=
  ⟨fun _ => rfl, fun _ _ => rfl, fun _ _ _ => rfl, fun _ _ _ _ => rfl⟩

end ObjectExtender
